import Mathlib

/-!
Shallow embedding of the version-requirement resolution engine of
`top-crates.py` (class `SemVer`, class `TopCrates`), together with proofs
about the claims of the specification.

Python strings are modelled as `String` / `List Char`; Python `None` as
`Option`; a raised exception as the `none` result of an `Option`-valued
function.  All string-splitting helpers that Python takes from `str.split`
are implemented as plain recursive functions on `List Char` so that every
definition is executable and amenable to induction.
-/

/-- Python `str.split(sep)` for a one-character separator.
`"".split(".") = [""]`, and the result is never the empty list. -/
def splitOnChar (c : Char) : List Char → List (List Char)
  | [] => [[]]
  | x :: xs =>
    match splitOnChar c xs with
    | [] => [[]]
    | h :: t => if x = c then [] :: h :: t else (x :: h) :: t

/-- Joining with a one-character separator; left inverse of `splitOnChar`. -/
def joinWithChar (c : Char) : List (List Char) → List Char
  | [] => []
  | [a] => a
  | a :: t => a ++ c :: joinWithChar c t

/-- Python `str.lstrip()`. -/
def pyLStrip (l : List Char) : List Char := l.dropWhile Char.isWhitespace

/-- Python `str.strip()`. -/
def pyStrip (l : List Char) : List Char :=
  ((l.dropWhile Char.isWhitespace).reverse.dropWhile Char.isWhitespace).reverse

/-- The regex `^[0-9]+$` (also `^\d+$`): non-empty, all decimal digits. -/
def isDigits (l : List Char) : Bool := !l.isEmpty && l.all Char.isDigit

/-- The regex `^\d+\.\d+$`. -/
def isNumDotNum (l : List Char) : Bool :=
  match splitOnChar '.' l with
  | [a, b] => isDigits a && isDigits b
  | _ => false

/-- Decimal value of a digit string (the value computed by Python `int`
on a non-empty all-digit string). -/
def valDigits (l : List Char) : Nat := l.foldl (fun n c => n * 10 + (c.toNat - 48)) 0

/-- Python `int(s)` restricted to the non-empty all-digit strings that the
callers in `top-crates.py` feed it (requirement components); any other
input raises `ValueError`, modelled as `none`. -/
def pyInt (l : List Char) : Option Nat :=
  if isDigits l then some (valDigits l) else none

/-- A numeric version component: the regex alternative `0|[1-9]\d*`
(no leading zero unless the component is literally `0`). -/
def validNum (l : List Char) : Bool :=
  isDigits l && (l == ['0'] || l.head? != some '0')

/-- A character allowed in prerelease/build identifiers: `[0-9a-zA-Z-]`. -/
def isIdentChar (c : Char) : Bool := c.isAlphanum || c == '-'

/-- A prerelease identifier: the regex alternative
`0|[1-9]\d*|\d*[a-zA-Z-][0-9a-zA-Z-]*` — non-empty, made of allowed
characters, and carrying no leading zero when fully numeric. -/
def validPreIdent (l : List Char) : Bool :=
  !l.isEmpty && l.all isIdentChar &&
    (!l.all Char.isDigit || (l == ['0'] || l.head? != some '0'))

/-- A build identifier: the regex piece `[0-9a-zA-Z-]+`. -/
def validBuildIdent (l : List Char) : Bool := !l.isEmpty && l.all isIdentChar

/-- Python `_cmp(a, b) = (a > b) - (a < b)` on integers (here naturals). -/
def cmpN (a b : Nat) : Int := if a > b then 1 else if a < b then -1 else 0

/-- Python `_cmp` on a 3-tuple of integers (lexicographic tuple comparison,
as used on `self.parts[:3]`). -/
def cmp3 (a b : Nat × Nat × Nat) : Int :=
  let c1 := cmpN a.1 b.1
  if c1 ≠ 0 then c1
  else
    let c2 := cmpN a.2.1 b.2.1
    if c2 ≠ 0 then c2 else cmpN a.2.2 b.2.2

/-- Python `_cmp` on two strings: lexicographic by code point, a proper
prefix being smaller. -/
def lexCmpChars : List Char → List Char → Int
  | [], [] => 0
  | [], _ :: _ => -1
  | _ :: _, [] => 1
  | a :: as, b :: bs =>
    let c := cmpN a.toNat b.toNat
    if c = 0 then lexCmpChars as bs else c

/-- A converted prerelease identifier: `convert` in `_nat_cmp` turns an
all-digit identifier into an `int` and keeps the rest as strings. -/
inductive PreId where
  | num (n : Nat)
  | str (s : List Char)
deriving DecidableEq

/-- The function `convert(text)` of `_nat_cmp.split_key`. -/
def convertId (l : List Char) : PreId :=
  if isDigits l then .num (valDigits l) else .str l

/-- The function `cmp_prerelease_tag` of `_nat_cmp`: ints compare numerically, an int is
smaller than any string, strings compare lexicographically. -/
def tagCmp : PreId → PreId → Int
  | .num a, .num b => cmpN a b
  | .num _, .str _ => -1
  | .str _, .num _ => 1
  | .str a, .str b => lexCmpChars a b

/-- The `for sub_a, sub_b in zip(...)` loop of `_nat_cmp`: first nonzero
identifier comparison wins; when the zipped prefix ties, the `else` branch
returns the comparison `fb` of the two *string lengths*. -/
def natCmpGo : List PreId → List PreId → Int → Int
  | x :: xs, y :: ys, fb =>
    let c := tagCmp x y
    if c = 0 then natCmpGo xs ys fb else c
  | _, _, fb => fb

/-- The function `_nat_cmp(a, b)` of `SemVer.compare`: `None` is replaced by `""`, keys
are split on `.` and converted, compared identifier-wise, with the string
lengths breaking a tie of the common prefix. -/
def natCmp (x y : Option String) : Int :=
  let a := (x.getD "").data
  let b := (y.getD "").data
  natCmpGo ((splitOnChar '.' a).map convertId) ((splitOnChar '.' b).map convertId)
    (cmpN a.length b.length)

/-- The parsed `SemVer` value: `self.parts = (major, minor, patch,
prerelease, build)` plus `self.raw_version`.  The constructor asserts
`str(self) == version`, so `raw` is the canonical rendering. -/
structure SemVer where
  major : Nat
  minor : Nat
  patch : Nat
  pre : Option String
  build : Option String
  raw : String
deriving DecidableEq, Repr

/-- Python truthiness of `self.parts[3]`: `None` and `""` are falsy. -/
def truthyStr (o : Option String) : Bool := o.getD "" != ""

/-- The method `SemVer.compare(self, other, strict)`: compare the `(major, minor,
patch)` triples; when they tie and `strict` is not set, compare the
prerelease strings (absent > present, else `_nat_cmp`). -/
def SemVer.compareSV (x y : SemVer) (strict : Bool) : Int :=
  let c := cmp3 (x.major, x.minor, x.patch) (y.major, y.minor, y.patch)
  if c ≠ 0 || strict then c
  else
    let rc1 := x.pre
    let rc2 := y.pre
    if !truthyStr rc1 && !truthyStr rc2 then c
    else if !truthyStr rc1 then 1
    else if !truthyStr rc2 then -1
    else natCmp rc1 rc2

/-- Split a character list at the first occurrence of `c`; the second
component is `none` when `c` does not occur. -/
def splitFirst (c : Char) : List Char → List Char × Option (List Char)
  | [] => ([], none)
  | x :: xs =>
    if x = c then ([], some xs)
    else
      let r := splitFirst c xs
      (x :: r.1, r.2)

/-- The constructor `SemVer.__init__`: parse a version string against the anchored SemVer
regex `^major.minor.patch(-pre)?(+build)?$`.  The core components are all
digits, so the first `-` before the first `+` starts the prerelease and the
first `+` starts the build, exactly as in the regex.  A failed match raises
`ValueError`, modelled as `none`. -/
def parseSemVer (s : String) : Option SemVer :=
  let (beforePlus, buildPart) := splitFirst '+' s.data
  let (core, prePart) := splitFirst '-' beforePlus
  match splitOnChar '.' core with
  | [ma, mi, pa] =>
    if validNum ma && validNum mi && validNum pa then
      let preOk := match prePart with
        | none => true
        | some p => (splitOnChar '.' p).all validPreIdent
      let buildOk := match buildPart with
        | none => true
        | some b => (splitOnChar '.' b).all validBuildIdent
      if preOk && buildOk then
        some { major := valDigits ma, minor := valDigits mi, patch := valDigits pa,
               pre := prePart.map (String.mk ·), build := buildPart.map (String.mk ·),
               raw := s }
      else none
    else none
  | _ => none

/-- The wildcard clause: `re.escape(pattern)` with `\*` turned into `.*`,
anchored on both sides and matched against the raw version.  `*` thus
matches any run of characters other than a newline (regex `.`). -/
def globMatch : List Char → List Char → Bool
  | [], [] => true
  | [], _ :: _ => false
  | c :: ps, [] => if c = '*' then globMatch ps [] else false
  | c :: ps, x :: xs =>
    if c = '*' then globMatch ps (x :: xs) || (x != '\n' && globMatch (c :: ps) xs)
    else c == x && globMatch ps xs
  termination_by p s => p.length + s.length

/-- The expansion `SemVer._caret_requirement(pattern)`: the `(min_pattern, max_pattern)`
pair, `none` when Python `int()` raises on a component. -/
def caretReq (pat : List Char) : Option (List Char × List Char) := do
  let rest := pat.tail
  let a := splitOnChar '.' rest
  let minPat := '>' :: '=' :: rest ++
    (if a.length = 1 then ".0.0".data else if a.length = 2 then ".0".data else [])
  let maxPat ←
    if a.getD 0 [] = ['0'] then
      if a.length = 1 then pure "<1.0.0".data
      else if a.length = 2 then do
        let n ← pyInt (a.getD 1 [])
        pure ('<' :: '0' :: '.' :: (toString (n + 1)).data ++ ".0".data)
      else
        if a.getD 1 [] = ['0'] then do
          let n ← pyInt (a.getD 2 [])
          pure ('<' :: '0' :: '.' :: a.getD 1 [] ++ '.' :: (toString (n + 1)).data)
        else do
          let n ← pyInt (a.getD 1 [])
          pure ('<' :: '0' :: '.' :: (toString (n + 1)).data ++ ".0".data)
    else do
      let n ← pyInt (a.getD 0 [])
      pure ('<' :: (toString (n + 1)).data ++ ".0.0".data)
  pure (minPat, maxPat)

/-- The expansion `SemVer._tilde_requirement(pattern)`. -/
def tildeReq (pat : List Char) : Option (List Char × List Char) := do
  let rest := pat.tail
  let a := splitOnChar '.' rest
  let minPat := '>' :: '=' :: rest ++
    (if a.length = 1 then ".0.0".data else if a.length = 2 then ".0".data else [])
  let maxPat ←
    if a.length = 1 then do
      let n ← pyInt (a.getD 0 [])
      pure ('<' :: (toString (n + 1)).data ++ ".0.0".data)
    else do
      let n ← pyInt (a.getD 1 [])
      pure ('<' :: a.getD 0 [] ++ '.' :: (toString (n + 1)).data ++ ".0".data)
  pure (minPat, maxPat)

/-- The tuple `self.parts` (always of length 5), used by the `=` clause for
prefix comparison. -/
inductive PartV where
  | n (k : Nat)
  | s (o : Option String)
deriving DecidableEq

/-- The tuple `self.parts` as a list of its five components. -/
def SemVer.partsList (v : SemVer) : List PartV :=
  [.n v.major, .n v.minor, .n v.patch, .s v.pre, .s v.build]

/-- The non-`^`/`~` clause dispatch of `SemVer.match._expr` (the body of
its `try` block).  An assertion failure or a `SemVer(...)`/`int(...)` error
raises, modelled as `none`.  The incoming `strict` flag is consulted only
by the `<` branch. -/
def exprTry (v : SemVer) (pat : List Char) (strict : Bool) : Option Bool :=
  if pat = ['*'] then some true
  else if pat.head? = some '=' then
    let p := pyLStrip pat.tail
    if !(p.head?.getD ' ').isDigit || p.contains '*' || p.isEmpty then none
    else if p ≠ v.raw.data then
      let b := splitOnChar '.' p
      let p' := if b.length = 2 then p ++ ".0".data
                else if b.length = 1 then p ++ ".0.0".data else p
      match parseSemVer (String.mk p') with
      | none => none
      | some a =>
        let minParts := min 5 b.length
        some ((v.partsList.take minParts) == (a.partsList.take minParts))
    else some true
  else if pat.take 2 = ['>', '='] then
    let p := pyLStrip (pat.drop 2)
    if !(p.head?.getD ' ').isDigit || p.contains '*' then none
    else
      let p' := if isDigits p then p ++ ".0.0".data
                else if isNumDotNum p then p ++ ".0".data else p
      match parseSemVer (String.mk p') with
      | none => none
      | some o => some (v.compareSV o false ≥ 0)
  else if pat.take 2 = ['<', '='] then
    let p := pyLStrip (pat.drop 2)
    if !(p.head?.getD ' ').isDigit || p.contains '*' then none
    else
      let p' := if isDigits p then p ++ ".9999999.9999999".data
                else if isNumDotNum p then p ++ ".9999999".data else p
      match parseSemVer (String.mk p') with
      | none => none
      | some o => some (v.compareSV o false ≤ 0)
  else if pat.head? = some '>' then
    let p := pyLStrip pat.tail
    if !(p.head?.getD ' ').isDigit || p.contains '*' then none
    else
      let p' := if isDigits p then p ++ ".0.0".data
                else if isNumDotNum p then p ++ ".0".data else p
      match parseSemVer (String.mk p') with
      | none => none
      | some o => some (v.compareSV o false > 0)
  else if pat.head? = some '<' then
    let p := pyLStrip pat.tail
    if !(p.head?.getD ' ').isDigit || p.contains '*' then none
    else
      let p' := if isDigits p then p ++ ".9999999.9999999".data
                else if isNumDotNum p then p ++ ".9999999".data else p
      match parseSemVer (String.mk p') with
      | none => none
      | some o => some (v.compareSV o strict < 0)
  else if !(pat.head?.getD ' ').isDigit then none
  else if pat.contains '*' then some (globMatch pat v.raw.data)
  else some (pat == v.raw.data)

/-- The stripped, non-caret, non-tilde evaluation of `_expr` (strip, fail
on the empty clause, then the `try` dispatch). -/
def exprPlain (v : SemVer) (pat : List Char) (strict : Bool) : Option Bool :=
  let pat := pyStrip pat
  if pat.isEmpty then none else exprTry v pat strict

/-- The clause evaluator `SemVer.match._expr(pattern, strict)`: after stripping, a `^` or `~`
clause expands to its two synthesized comparator clauses — the lower bound
evaluated with `strict=False` (the default), the upper bound with
`strict=True` — combined with Python's short-circuiting `and`.  The
synthesized clauses start with `>=` resp. `<`, so their own evaluation
never re-enters the caret/tilde branches. -/
def exprP (v : SemVer) (pat0 : List Char) (strict : Bool) : Option Bool :=
  let pat := pyStrip pat0
  match pat.head? with
  | none => none
  | some h =>
    if h = '^' then do
      let (p1, p2) ← caretReq pat
      let b1 ← exprPlain v p1 false
      if b1 then exprPlain v p2 true else pure false
    else if h = '~' then do
      let (p1, p2) ← tildeReq pat
      let b1 ← exprPlain v p1 false
      if b1 then exprPlain v p2 true else pure false
    else exprTry v pat strict

/-- The clause conjunction of `SemVer.match`: `all(_expr(p) for p in
pattern.split(","))`, with Python's `all` short-circuiting at the first
`False` and exceptions propagating. -/
def matchClauses (v : SemVer) : List (List Char) → Option Bool
  | [] => some true
  | c :: cs => do
    let b ← exprP v c false
    if b then matchClauses v cs else pure false

/-- The method `SemVer.match(self, pattern)`. -/
def SemVer.matchReq (v : SemVer) (pattern : String) : Option Bool :=
  matchClauses v (splitOnChar ',' pattern.data)

/-- A per-line version record of the index: the fields of the JSON object
that `top-crates.py` reads (`name`, `vers`, `yanked`, `deps`). -/
structure Dep where
  name : String
  req : String
  kind : String
  optional : Bool
  package : Option String
deriving DecidableEq, Repr

structure Record where
  name : String
  vers : String
  yanked : Bool
  deps : List Dep
deriving DecidableEq, Repr

/-- The loop body of `SemVer.find_matching` with its three accumulators:
`m` (best live match), `m_yanked` (best yanked match) and `last` (last
record seen).  A version key that fails to parse, or a clause that raises
inside `match`, propagates as `none`. -/
def findMatchingGo (pattern : String) :
    List (String × Record) → Option (SemVer × Record) → Option (SemVer × Record) →
      Option Record → Option Record
  | [], m, my, last =>
    let m := if my.isSome && m.isNone then my else m
    match m with
    | some p => some p.2
    | none => last
  | (v, item) :: rest, m, my, _last =>
    match parseSemVer v with
    | none => none
    | some w =>
      match w.matchReq pattern with
      | none => none
      | some false => findMatchingGo pattern rest m my (some item)
      | some true =>
        if item.yanked = false then
          match m with
          | none => findMatchingGo pattern rest (some (w, item)) my (some item)
          | some m0 =>
            if w.compareSV m0.1 false > 0 then
              findMatchingGo pattern rest (some (w, item)) my (some item)
            else findMatchingGo pattern rest m my (some item)
        else
          match my with
          | none => findMatchingGo pattern rest m (some (w, item)) (some item)
          | some y0 =>
            if w.compareSV y0.1 false > 0 then
              findMatchingGo pattern rest m (some (w, item)) (some item)
            else findMatchingGo pattern rest m my (some item)

/-- The selector `SemVer.find_matching(pattern, versions)`: iterate the record map in
insertion order, keep the best live and best yanked match, fall back to the
yanked best and then to the last record; with no record at all the final
`m[1]["name"]` subscripts `None` and raises, modelled as `none`. -/
def findMatching (pattern : String) (versions : List (String × Record)) : Option Record :=
  findMatchingGo pattern versions none none none

/-- The resolver worklist plus memo: `self.crates` (a dict of sets, in
insertion order) and `seen` (a set of `(crate, version)` tuples, in
insertion order). -/
structure RState where
  crates : List (String × List String)
  seen : List (String × String)
deriving DecidableEq, Repr

/-- An exclusion test: the configured glob patterns are compiled to the
anchored regexes `"^" + re.escape(k).replace(r"\*", r".*") + "$"`, which is
exactly the glob match against the whole name. -/
def isExcluded (exclusions : List String) (name : String) : Bool :=
  exclusions.any (fun e => globMatch e.data name.data)

/-- The method `TopCrates.add(name, version)`: drop excluded names, otherwise add the
version to the crate's set (`defaultdict(set)`: a new name is appended at
the end of the dict, an existing name keeps its position). -/
def addCrate (exclusions : List String) (crates : List (String × List String))
    (name version : String) : List (String × List String) :=
  if isExcluded exclusions name then crates
  else if crates.any (fun p => p.1 == name) then
    crates.map (fun p =>
      if p.1 == name then (p.1, if p.2.contains version then p.2 else p.2 ++ [version]) else p)
  else crates ++ [(name, [version])]

/-- Python `==` between a `str` and a 2-tuple of strings: values of
different types are never equal, so the test is always `False`.  This is
the comparison performed element-wise by `name not in seen` in
`resolve_deps`, where `seen` holds `(crate, version)` tuples. -/
def pyEqStrPair (_name : String) (_slug : String × String) : Bool := false

/-- The name resolved in the dependency loop: `dep["package"]` when
present, else `dep["name"]`. -/
def depName (d : Dep) : String :=
  match d.package with
  | some p => p
  | none => d.name

/-- One dependency of the `for dep in k["deps"]` loop: compute the real
package name, assert the dependency kind, test `name not in seen` (which
never fails, see `pyEqStrPair`) and `self.add` the `(name, req)` pair; the
unreachable `else` arm is `assert False`. -/
def expandDep (exclusions : List String) (seen : List (String × String))
    (crates : List (String × List String)) (d : Dep) :
    Option (List (String × List String)) :=
  if !(d.kind == "normal" || d.kind == "build" || d.kind == "dev") then none
  else if seen.any (fun slug => pyEqStrPair (depName d) slug) then none
  else some (addCrate exclusions crates (depName d) d.req)

/-- The dependency loop over `k["deps"]`. -/
def expandDeps (exclusions : List String) (seen : List (String × String))
    (crates : List (String × List String)) :
    List Dep → Option (List (String × List String))
  | [] => some crates
  | d :: ds => do
    let crates' ← expandDep exclusions seen crates d
    expandDeps exclusions seen crates' ds

/-- The `for vers in versions` loop of `resolve_deps`: select a record,
skip an already-seen `(crate, vers)` slug, otherwise record it and expand
its dependencies. -/
def processVersions (exclusions : List String) (crate : String)
    (info : List (String × Record)) :
    List String → RState → Option RState
  | [], st => some st
  | vers :: rest, st => do
    let k ← findMatching vers info
    if st.seen.contains (crate, k.vers) then
      processVersions exclusions crate info rest st
    else
      let seen' := st.seen ++ [(crate, k.vers)]
      let crates' ← expandDeps exclusions seen' st.crates k.deps
      processVersions exclusions crate info rest { crates := crates', seen := seen' }

/-- The insertion `info[latest] = data` over the file lines: Python dict insertion (an
existing key keeps its position and takes the new value). -/
def dictInsert (l : List (String × Record)) (k : String) (r : Record) :
    List (String × Record) :=
  if l.any (fun p => p.1 == k) then l.map (fun p => if p.1 == k then (k, r) else p)
  else l ++ [(k, r)]

/-- Reading a crate's index file into the `info` map plus the `latest`
version (the `vers` of the last line). -/
def buildInfo (records : List Record) : List (String × Record) :=
  records.foldl (fun acc r => dictInsert acc r.vers r) []

/-- The body of one `while` iteration of `resolve_deps` after popping
`(crate, versions)`.  An excluded crate hits a `print` that references the
unbound variable `name` (a `NameError` on first reach), modelled as `none`;
the branch is unreachable because only `TopCrates.add` inserts into the
worklist and it filters exclusions.  A missing index file or an empty
version set is skipped.  The index is a map from crate name to the parsed
lines of its index file (`none` = no file). -/
def processCrate (exclusions : List String) (index : String → Option (List Record))
    (st : RState) (crate : String) (versions : List String) : Option RState :=
  if isExcluded exclusions crate then none
  else if versions.isEmpty then some st
  else
    match index crate with
    | none => some st
    | some records =>
      let info := buildInfo records
      let latest := (records.getLast?).map (fun r => r.vers)
      let versions :=
        match latest with
        | some l =>
          if versions.contains "latest" then
            let vs := versions.erase "latest"
            if vs.contains l then vs else vs ++ [l]
          else versions
        | none => versions
      processVersions exclusions crate info versions st

/-- Pop the last worklist entry (`dict.popitem()` pops the most recently
inserted key) and process it. -/
def stepOnce (exclusions : List String) (index : String → Option (List Record))
    (st : RState) : Option RState :=
  match st.crates.getLast? with
  | none => some st
  | some (crate, versions) =>
    processCrate exclusions index { st with crates := st.crates.dropLast } crate versions

/-- The bounded `while len(self.crates) > 0` loop of `resolve_deps`.
Returns the final state (or `none` for a propagated exception), whether the
iteration cap was hit (`n > max_iterations` prints a diagnostic and
breaks), and the number of executed loop bodies. -/
def resolveLoop (exclusions : List String) (index : String → Option (List Record)) :
    Nat → RState → Option RState × Bool × Nat
  | fuel, st =>
    if st.crates.isEmpty then (some st, false, 0)
    else
      match fuel with
      | 0 => (some st, true, 0)
      | f + 1 =>
        match stepOnce exclusions index st with
        | none => (none, false, 1)
        | some st' =>
          let (r, ov, k) := resolveLoop exclusions index f st'
          (r, ov, k + 1)

/-- The mapping `self.selected_crates` as built at the end of `resolve_deps`: first
pass creates every key (first-occurrence order) with an empty list, second
pass appends each seen version. -/
def buildSelected (seen : List (String × String)) : List (String × List String) :=
  let base := seen.foldl
    (fun acc p => if acc.any (fun q => q.1 == p.1) then acc else acc ++ [(p.1, ([] : List String))]) []
  seen.foldl
    (fun acc p => acc.map (fun q => if q.1 == p.1 then (q.1, q.2 ++ [p.2]) else q)) base

/-- The full result of `TopCrates.resolve_deps(max_iterations)`. -/
structure ResolveResult where
  seen : List (String × String)
  selectedCrates : List (String × List String)
deriving DecidableEq, Repr

def resolveDeps (exclusions : List String) (index : String → Option (List Record))
    (maxIterations : Nat) (st0 : RState) : Option ResolveResult × Bool × Nat :=
  let (r, ov, n) := resolveLoop exclusions index maxIterations st0
  match r with
  | none => (none, ov, n)
  | some st => (some { seen := st.seen, selectedCrates := buildSelected st.seen }, ov, n)

/-- The method `TopCrates._prefix_name(name)`. -/
def prefixName (name : String) : String :=
  let l := name.length
  if l = 1 then "1/" ++ name
  else if l = 2 then "2/" ++ name
  else if l = 3 then "3/" ++ name.take 1 ++ "/" ++ name
  else name.take 2 ++ "/" ++ (name.drop 2).take 2 ++ "/" ++ name

/-- Python `sep.join(parts)`. -/
def pyJoin (sep : String) : List String → String
  | [] => ""
  | x :: xs => xs.foldl (fun acc y => acc ++ sep ++ y) x

/-- One line of a source index file as `make_index` sees it: the raw text
of the line and the `vers` field of its JSON object. -/
structure IndexLine where
  raw : String
  vers : String
deriving DecidableEq, Repr

/-- The per-crate file content written by `TopCrates.make_index`: the
source file's lines filtered to the selected versions, with an appended
empty string, joined by newlines. -/
def makeIndexContent (lines : List IndexLine) (versions : List String) : String :=
  let newData := (lines.filter (fun l => versions.contains l.vers)).map (fun l => l.raw)
  pyJoin "\n" (newData ++ [""])

/-- The method `TopCrates.make_index`: one output file per entry of the selected
catalog — no exclusion filtering is applied here.  `files` maps a crate
name to the parsed lines of its source index file. -/
def makeIndexFiles (files : String → List IndexLine)
    (selected : List (String × List String)) : List (String × String) :=
  selected.map (fun p => (prefixName p.1, makeIndexContent (files p.1) p.2))

/-- Generic lexicographic comparison of two lists by a comparator, a proper
prefix being smaller — used as the reference shape for both the string
comparison and the (canonical-case) prerelease comparison. -/
def lexList {α : Type} (c : α → α → Int) : List α → List α → Int
  | [], [] => 0
  | [], _ :: _ => -1
  | _ :: _, [] => 1
  | x :: xs, y :: ys => if c x y = 0 then lexList c xs ys else c x y

/-- The character comparator underlying the Python string comparison. -/
def charCmp (a b : Char) : Int := cmpN a.toNat b.toNat

/-- The genuine lexicographic comparison of converted identifier lists;
on canonical prerelease strings `_nat_cmp` computes exactly this. -/
def lexCmpIds : List PreId → List PreId → Int := lexList tagCmp

/-- Total rendered length of a dot-joined identifier list. -/
def dotLen (A : List (List Char)) : Nat := (joinWithChar '.' A).length

/-- Canonicity of a prerelease string: every dot-separated identifier is a
valid SemVer prerelease identifier (what the parser guarantees). -/
def StrCanon (s : String) : Prop :=
  ∀ q ∈ splitOnChar '.' s.data, validPreIdent q = true

/-- The converted identifier list of a prerelease string. -/
def idsOf (s : String) : List PreId := (splitOnChar '.' s.data).map convertId

/-- The prerelease tier of `compare` (the `rccmp` computation), factored
out for the proofs below. -/
def preCmp (rc1 rc2 : Option String) : Int :=
  if !truthyStr rc1 && !truthyStr rc2 then 0
  else if !truthyStr rc1 then 1
  else if !truthyStr rc2 then -1
  else natCmp rc1 rc2

/-- Canonicity of a parsed version: its prerelease, when present, is a
non-empty string of valid identifiers. -/
def SVCanon (v : SemVer) : Prop :=
  ∀ p, v.pre = some p → p ≠ "" ∧ StrCanon p

/-- A record map entry that parses, matches the pattern and has the given
yanked flag (`yy = false`: a live match; `yy = true`: a yanked match). -/
def matchB (pattern : String) (yy : Bool) (p : String × Record) : Bool :=
  match parseSemVer p.1 with
  | none => false
  | some w => (w.matchReq pattern == some true) && (p.2.yanked == yy)

/-- The version `w` dominates (in non-strict SemVer order) every entry of `P` that is a
match with yanked flag `yy`. -/
def MaxOver (pattern : String) (yy : Bool) (w : SemVer) (P : List (String × Record)) : Prop :=
  ∀ p ∈ P, matchB pattern yy p = true → ∀ w', parseSemVer p.1 = some w' →
    0 ≤ w.compareSV w' false

/-- The record `r` is a match with yanked flag `yy` whose version is a
SemVer-order maximum among all such matches of `M`. -/
def BestMatch (pattern : String) (yy : Bool) (M : List (String × Record)) (r : Record) : Prop :=
  ∃ v w, (v, r) ∈ M ∧ parseSemVer v = some w ∧ w.matchReq pattern = some true ∧
    r.yanked = yy ∧ MaxOver pattern yy w M

/-- Invariant tying a best-so-far accumulator of `find_matching` to the
processed prefix `P`. -/
def Good (pattern : String) (yy : Bool) (P : List (String × Record)) :
    Option (SemVer × Record) → Prop
  | none => ∀ p ∈ P, matchB pattern yy p = false
  | some (w, rec) =>
    (∃ v, (v, rec) ∈ P ∧ parseSemVer v = some w ∧ w.matchReq pattern = some true ∧
      rec.yanked = yy) ∧ MaxOver pattern yy w P

/-- The index used in the concrete resolver scenarios: crate `a` at
`1.0.0` depends on `b` (requirement `^1`); crate `b` has a single
dependency-free version `1.0.0`. -/
def c2Index : String → Option (List Record) := fun n =>
  if n = "a" then some [⟨"a", "1.0.0", false, [⟨"b", "^1", "normal", false, none⟩]⟩]
  else if n = "b" then some [⟨"b", "1.0.0", false, []⟩]
  else none

/-- No worklist entry names an excluded crate. -/
def NoExclCrates (excl : List String) (crates : List (String × List String)) : Prop :=
  ∀ p ∈ crates, isExcluded excl p.1 = false

/-- No `seen` pair names an excluded crate. -/
def NoExclSeen (excl : List String) (seen : List (String × String)) : Prop :=
  ∀ p ∈ seen, isExcluded excl p.1 = false

/-- The padding applied by the `<` (and `<=`) branch of `_expr` to the
clause literal before parsing: a bare major gets `.9999999.9999999`, a
`major.minor` pair gets `.9999999`, anything else is parsed as written
(named copy of the inline expression in `exprTry`). -/
def padLt (p : List Char) : List Char :=
  if isDigits p then p ++ ".9999999.9999999".data
  else if isNumDotNum p then p ++ ".9999999".data else p

/-- The padding applied by the `=` branch of `_expr` to the clause literal
before parsing: a two-component literal gets `.0`, a one-component literal
gets `.0.0`, anything else is parsed as written (named copy of the inline
expression in `exprTry`). -/
def padEq (p : List Char) : List Char :=
  if (splitOnChar '.' p).length = 2 then p ++ ".0".data
  else if (splitOnChar '.' p).length = 1 then p ++ ".0.0".data else p

/-!  ## Order-theoretic laws of the comparison chain

`find_matching` keeps a running best element using `compare(...) > 0`; to
show that it computes a true maximum we establish that every comparator in
the chain behaves like the comparison function of a total preorder:
reflexive, antisymmetric (`c a b = -(c b a)`) and transitive on `≥ 0`.
For the prerelease comparator `_nat_cmp` these laws hold only on the
canonical identifier strings produced by the SemVer parser (the
string-length tie-break agrees with list order only in the absence of
leading zeros), which is why several lemmas carry validity hypotheses. -/

theorem cmpN_antisym (a b : Nat) : cmpN a b = -(cmpN b a) := by
  simp only [cmpN]; split_ifs <;>
    first
    | omega
    | (simp only [false_iff, iff_false, true_iff, iff_true]; omega)

theorem cmpN_eq_zero_iff (a b : Nat) : cmpN a b = 0 ↔ a = b := by
  simp only [cmpN]; split_ifs <;>
    first
    | omega
    | (simp only [false_iff, iff_false, true_iff, iff_true]; omega)

theorem cmpN_pos_iff (a b : Nat) : 0 < cmpN a b ↔ b < a := by
  simp only [cmpN]; split_ifs <;>
    first
    | omega
    | (simp only [false_iff, iff_false, true_iff, iff_true]; omega)

theorem cmpN_nonneg_iff (a b : Nat) : 0 ≤ cmpN a b ↔ b ≤ a := by
  simp only [cmpN]; split_ifs <;>
    first
    | omega
    | (simp only [false_iff, iff_false, true_iff, iff_true]; omega)

theorem cmpN_refl (a : Nat) : cmpN a a = 0 := by
  simp only [cmpN]; split_ifs <;>
    first
    | omega
    | (simp only [false_iff, iff_false, true_iff, iff_true]; omega)

theorem cmp3_antisym (a b : Nat × Nat × Nat) : cmp3 a b = -(cmp3 b a) := by
  simp only [cmp3, cmpN]; split_ifs <;>
    first
    | omega
    | (simp only [false_iff, iff_false, true_iff, iff_true, not_or, not_and]; omega)

theorem cmp3_eq_zero_iff (a b : Nat × Nat × Nat) : cmp3 a b = 0 ↔ a = b := by
  obtain ⟨a1, a2, a3⟩ := a
  obtain ⟨b1, b2, b3⟩ := b
  simp only [cmp3, cmpN, Prod.mk.injEq]
  split_ifs <;>
    first
    | omega
    | (simp only [false_iff, iff_false, true_iff, iff_true, not_and]; omega)

theorem cmp3_nonneg_iff (a b : Nat × Nat × Nat) :
    0 ≤ cmp3 a b ↔
      (b.1 < a.1 ∨ (a.1 = b.1 ∧ (b.2.1 < a.2.1 ∨ (a.2.1 = b.2.1 ∧ b.2.2 ≤ a.2.2)))) := by
  simp only [cmp3, cmpN]; split_ifs <;>
    first
    | omega
    | (simp only [false_iff, iff_false, true_iff, iff_true, not_or, not_and]; omega)

theorem cmp3_pos_iff (a b : Nat × Nat × Nat) :
    0 < cmp3 a b ↔
      (b.1 < a.1 ∨ (a.1 = b.1 ∧ (b.2.1 < a.2.1 ∨ (a.2.1 = b.2.1 ∧ b.2.2 < a.2.2)))) := by
  simp only [cmp3, cmpN]; split_ifs <;>
    first
    | omega
    | (simp only [false_iff, iff_false, true_iff, iff_true, not_or, not_and]; omega)

theorem cmp3_trans_ge (a b c : Nat × Nat × Nat) (h1 : 0 ≤ cmp3 a b) (h2 : 0 ≤ cmp3 b c) :
    0 ≤ cmp3 a c := by
  rw [cmp3_nonneg_iff] at h1 h2 ⊢
  omega

section AbstractCmp

variable {α : Type} (c : α → α → Int)

/-- Derived strict transitivity: `a ≥ b` and `b > d` give `a > d` for any
antisymmetric, `≥`-transitive comparator. -/
theorem cmpTransGt (hanti : ∀ a b, c a b = -(c b a))
    (htr : ∀ a b d, 0 ≤ c a b → 0 ≤ c b d → 0 ≤ c a d)
    (a b d : α) (h1 : 0 ≤ c a b) (h2 : 0 < c b d) : 0 < c a d := by
  by_contra h
  push_neg at h
  have hda : 0 ≤ c d a := by rw [hanti d a]; omega
  have hdb : 0 ≤ c d b := htr d a b hda h1
  rw [hanti d b] at hdb
  omega

/-- Derived strict transitivity on the other side. -/
theorem cmpTransGt' (hanti : ∀ a b, c a b = -(c b a))
    (htr : ∀ a b d, 0 ≤ c a b → 0 ≤ c b d → 0 ≤ c a d)
    (a b d : α) (h1 : 0 < c a b) (h2 : 0 ≤ c b d) : 0 < c a d := by
  by_contra h
  push_neg at h
  have hda : 0 ≤ c d a := by rw [hanti d a]; omega
  have hba : 0 ≤ c b a := htr b d a h2 hda
  rw [hanti b a] at hba
  omega

/-- Derived congruence: a tie composes with any sign. -/
theorem cmpZeroTrans (hanti : ∀ a b, c a b = -(c b a))
    (htr : ∀ a b d, 0 ≤ c a b → 0 ≤ c b d → 0 ≤ c a d)
    (a b d : α) (h1 : c a b = 0) (h2 : c b d = 0) : c a d = 0 := by
  have h3 : 0 ≤ c a d := htr a b d (by omega) (by omega)
  have h4 : 0 ≤ c d a := by
    have hdb : 0 ≤ c d b := by rw [hanti d b]; omega
    have hba : 0 ≤ c b a := by rw [hanti b a]; omega
    exact htr d b a hdb hba
  rw [hanti d a] at h4
  omega

theorem lexList_refl (hrefl : ∀ a, c a a = 0) : ∀ l, lexList c l l = 0
  | [] => rfl
  | x :: xs => by simp only [lexList, hrefl x, if_pos]; exact lexList_refl hrefl xs

theorem lexList_antisym (hanti : ∀ a b, c a b = -(c b a)) :
    ∀ l m, lexList c l m = -(lexList c m l)
  | [], [] => rfl
  | [], _ :: _ => rfl
  | _ :: _, [] => rfl
  | x :: xs, y :: ys => by
    simp only [lexList]
    by_cases h : c x y = 0
    · have h' : c y x = 0 := by rw [hanti y x] at *; omega
      rw [if_pos h, if_pos h']
      exact lexList_antisym hanti xs ys
    · have h' : ¬ c y x = 0 := by rw [hanti y x] at *; omega
      rw [if_neg h, if_neg h']
      exact hanti x y

theorem lexList_trans_ge (hanti : ∀ a b, c a b = -(c b a))
    (htr : ∀ a b d, 0 ≤ c a b → 0 ≤ c b d → 0 ≤ c a d) :
    ∀ l m k, 0 ≤ lexList c l m → 0 ≤ lexList c m k → 0 ≤ lexList c l k
  | [], [], k, _, h2 => h2
  | [], _ :: _, _, h1, _ => by simp [lexList] at h1
  | _ :: _, [], [], _, _ => by simp [lexList]
  | _ :: _, [], _ :: _, _, h2 => by simp [lexList] at h2
  | x :: xs, y :: ys, [], _, _ => by simp [lexList]
  | x :: xs, y :: ys, z :: zs, h1, h2 => by
    simp only [lexList] at h1 h2 ⊢
    by_cases hxy : c x y = 0 <;> by_cases hyz : c y z = 0
    · rw [if_pos hxy] at h1
      rw [if_pos hyz] at h2
      rw [if_pos (cmpZeroTrans c hanti htr x y z hxy hyz)]
      exact lexList_trans_ge hanti htr xs ys zs h1 h2
    · rw [if_neg hyz] at h2
      have hpos : 0 < c x z := cmpTransGt c hanti htr x y z (by omega) (by omega)
      rw [if_neg (by omega)]
      omega
    · rw [if_neg hxy] at h1
      have hpos : 0 < c x z := cmpTransGt' c hanti htr x y z (by omega) (by omega)
      rw [if_neg (by omega)]
      omega
    · rw [if_neg hxy] at h1
      rw [if_neg hyz] at h2
      have hpos : 0 < c x z := cmpTransGt' c hanti htr x y z (by omega) (by omega)
      rw [if_neg (by omega)]
      omega

end AbstractCmp

theorem lexCmpChars_eq_lexList : ∀ a b, lexCmpChars a b = lexList charCmp a b
  | [], [] => rfl
  | [], _ :: _ => rfl
  | _ :: _, [] => rfl
  | x :: xs, y :: ys => by
    simp only [lexCmpChars, lexList, charCmp]
    by_cases h : cmpN x.toNat y.toNat = 0
    · rw [if_pos h, if_pos h]; exact lexCmpChars_eq_lexList xs ys
    · rw [if_neg h, if_neg h]

theorem charCmp_refl (a : Char) : charCmp a a = 0 := cmpN_refl _

theorem charCmp_antisym (a b : Char) : charCmp a b = -(charCmp b a) := cmpN_antisym _ _

theorem charCmp_trans_ge (a b d : Char) (h1 : 0 ≤ charCmp a b) (h2 : 0 ≤ charCmp b d) :
    0 ≤ charCmp a d := by
  simp only [charCmp, cmpN_nonneg_iff] at *
  omega

theorem char_toNat_inj {c d : Char} (h : c.toNat = d.toNat) : c = d :=
  Char.eq_of_val_eq (UInt32.ext h)

theorem charCmp_eq_zero {a b : Char} (h : charCmp a b = 0) : a = b := by
  rw [charCmp, cmpN_eq_zero_iff] at h
  exact char_toNat_inj h

theorem lexCmpChars_refl (a : List Char) : lexCmpChars a a = 0 := by
  rw [lexCmpChars_eq_lexList]; exact lexList_refl charCmp charCmp_refl a

theorem lexCmpChars_antisym (a b : List Char) : lexCmpChars a b = -(lexCmpChars b a) := by
  rw [lexCmpChars_eq_lexList, lexCmpChars_eq_lexList]
  exact lexList_antisym charCmp charCmp_antisym a b

theorem lexCmpChars_trans_ge (a b d : List Char) (h1 : 0 ≤ lexCmpChars a b)
    (h2 : 0 ≤ lexCmpChars b d) : 0 ≤ lexCmpChars a d := by
  rw [lexCmpChars_eq_lexList] at *
  exact lexList_trans_ge charCmp charCmp_antisym charCmp_trans_ge a b d h1 h2

theorem lexCmpChars_eq_zero : ∀ {a b : List Char}, lexCmpChars a b = 0 → a = b
  | [], [], _ => rfl
  | [], _ :: _, h => by simp [lexCmpChars] at h
  | _ :: _, [], h => by simp [lexCmpChars] at h
  | x :: xs, y :: ys, h => by
    simp only [lexCmpChars] at h
    by_cases hc : cmpN x.toNat y.toNat = 0
    · rw [if_pos hc] at h
      rw [cmpN_eq_zero_iff] at hc
      rw [char_toNat_inj hc, lexCmpChars_eq_zero h]
    · rw [if_neg hc] at h; exact absurd h hc

theorem tagCmp_refl (a : PreId) : tagCmp a a = 0 := by
  cases a with
  | num n => exact cmpN_refl n
  | str s => exact lexCmpChars_refl s

theorem tagCmp_antisym (a b : PreId) : tagCmp a b = -(tagCmp b a) := by
  cases a <;> cases b <;> simp only [tagCmp] <;>
    first
    | exact cmpN_antisym _ _
    | exact lexCmpChars_antisym _ _
    | norm_num

theorem tagCmp_trans_ge (a b d : PreId) (h1 : 0 ≤ tagCmp a b) (h2 : 0 ≤ tagCmp b d) :
    0 ≤ tagCmp a d := by
  cases a <;> cases b <;> cases d <;> simp only [tagCmp] at * <;>
    first
    | omega
    | (rw [cmpN_nonneg_iff] at *; omega)
    | exact lexCmpChars_trans_ge _ _ _ h1 h2

theorem lexCmpIds_refl (l : List PreId) : lexCmpIds l l = 0 :=
  lexList_refl tagCmp tagCmp_refl l

theorem lexCmpIds_antisym (l m : List PreId) : lexCmpIds l m = -(lexCmpIds m l) :=
  lexList_antisym tagCmp tagCmp_antisym l m

theorem lexCmpIds_trans_ge (l m k : List PreId) (h1 : 0 ≤ lexCmpIds l m)
    (h2 : 0 ≤ lexCmpIds m k) : 0 ≤ lexCmpIds l k :=
  lexList_trans_ge tagCmp tagCmp_antisym tagCmp_trans_ge l m k h1 h2

/-!  ### Injectivity of `convert` on canonical identifiers -/

theorem char_isDigit_toNat {c : Char} (h : c.isDigit = true) :
    48 <= c.toNat /\ c.toNat <= 57 := by
  simp [Char.isDigit] at h
  exact h

theorem valDigits_cons (c : Char) (l : List Char) :
    valDigits (c :: l) = (c.toNat - 48) * 10 ^ l.length + valDigits l := by
  have key : ∀ (l : List Char) (n : Nat),
      l.foldl (fun n c => n * 10 + (c.toNat - 48)) n =
        n * 10 ^ l.length + l.foldl (fun n c => n * 10 + (c.toNat - 48)) 0 := by
    intro l
    induction l with
    | nil => intro n; simp
    | cons d ds ih =>
      intro n
      simp only [List.foldl_cons]
      rw [ih (n * 10 + (d.toNat - 48)), ih (0 * 10 + (d.toNat - 48))]
      simp [List.length_cons, pow_succ]
      ring
  simp only [valDigits, List.foldl_cons]
  rw [key l (0 * 10 + (c.toNat - 48))]
  simp [Nat.mul_comm]

theorem valDigits_lt {l : List Char} (h : ∀ c ∈ l, c.isDigit = true) :
    valDigits l < 10 ^ l.length := by
  induction l with
  | nil => simp [valDigits]
  | cons c cs ih =>
    have hd := char_isDigit_toNat (h c (by simp))
    have ihc := ih (fun x hx => h x (by simp [hx]))
    rw [valDigits_cons]
    have h9 : c.toNat - 48 ≤ 9 := by omega
    calc (c.toNat - 48) * 10 ^ cs.length + valDigits cs
        < (c.toNat - 48) * 10 ^ cs.length + 10 ^ cs.length := by omega
      _ = (c.toNat - 48 + 1) * 10 ^ cs.length := by ring
      _ ≤ 10 * 10 ^ cs.length := by
          exact Nat.mul_le_mul_right _ (by omega)
      _ = 10 ^ (c :: cs).length := by rw [List.length_cons, pow_succ]; ring

theorem valDigits_ge {c : Char} {l : List Char} (hd : c.isDigit = true) (hc : c ≠ '0') :
    10 ^ l.length ≤ valDigits (c :: l) := by
  have hb := char_isDigit_toNat hd
  have h1 : 1 ≤ c.toNat - 48 := by
    rcases Nat.lt_or_ge 48 c.toNat with h | h
    · omega
    · exfalso
      have : c.toNat = 48 := by omega
      exact hc (char_toNat_inj (by rw [this]; rfl))
  rw [valDigits_cons]
  calc 10 ^ l.length = 1 * 10 ^ l.length := by ring
    _ ≤ (c.toNat - 48) * 10 ^ l.length := Nat.mul_le_mul_right _ h1
    _ ≤ (c.toNat - 48) * 10 ^ l.length + valDigits l := Nat.le_add_right _ _

/-- Fixed-width base-10 positional uniqueness. -/
theorem base_unique {B d1 d2 r1 r2 : Nat} (hB : 0 < B) (h1 : r1 < B) (h2 : r2 < B)
    (h : d1 * B + r1 = d2 * B + r2) : d1 = d2 ∧ r1 = r2 := by
  have e1 : (d1 * B + r1) / B = d1 := by
    rw [Nat.mul_comm d1 B, Nat.mul_add_div hB, Nat.div_eq_of_lt h1]
    omega
  have e2 : (d2 * B + r2) / B = d2 := by
    rw [Nat.mul_comm d2 B, Nat.mul_add_div hB, Nat.div_eq_of_lt h2]
    omega
  have hd : d1 = d2 := by rw [<- e1, <- e2, h]
  subst hd
  exact ⟨rfl, by omega⟩

theorem valDigits_inj_same_len : ∀ {a b : List Char},
    (∀ c ∈ a, c.isDigit = true) → (∀ c ∈ b, c.isDigit = true) →
    a.length = b.length → valDigits a = valDigits b → a = b
  | [], [], _, _, _, _ => rfl
  | [], _ :: _, _, _, hl, _ => by simp at hl
  | _ :: _, [], _, _, hl, _ => by simp at hl
  | x :: xs, y :: ys, ha, hb, hl, hv => by
    simp only [List.length_cons, Nat.add_right_cancel_iff] at hl
    rw [valDigits_cons, valDigits_cons, hl] at hv
    have hxa := char_isDigit_toNat (ha x (List.mem_cons_self x xs))
    have hyb := char_isDigit_toNat (hb y (List.mem_cons_self y ys))
    have bx := valDigits_lt (fun c hc => ha c (List.mem_cons_of_mem x hc))
    have by' := valDigits_lt (fun c hc => hb c (List.mem_cons_of_mem y hc))
    rw [hl] at bx
    obtain ⟨hd, hr⟩ := base_unique (Nat.pos_pow_of_pos _ (by omega)) bx by' hv
    have hx : x = y := char_toNat_inj (by omega)
    have htail : xs = ys :=
      valDigits_inj_same_len (fun c hc => ha c (List.mem_cons_of_mem x hc))
        (fun c hc => hb c (List.mem_cons_of_mem y hc)) hl hr
    rw [hx, htail]


theorem validPreIdent_props {l : List Char} (h : validPreIdent l = true)
    (hd : l.all Char.isDigit = true) : l ≠ [] ∧ (l = ['0'] ∨ l.head? ≠ some '0') := by
  simp only [validPreIdent, Bool.and_eq_true, Bool.or_eq_true, Bool.not_eq_true',
    beq_iff_eq, bne_iff_ne, ne_eq] at h
  obtain ⟨⟨hne, _⟩, hcan⟩ := h
  refine ⟨by simpa using hne, ?_⟩
  rcases hcan with hfalse | hor
  · rw [hd] at hfalse; exact absurd hfalse (by simp)
  · exact hor

/-- A canonical numeric identifier strictly shorter than another has a
strictly smaller value. -/
theorem canon_len_lt_val {a b : List Char} (hane : a ≠ [])
    (hcanB : b = ['0'] ∨ b.head? ≠ some '0')
    (hdb : ∀ c ∈ b, c.isDigit = true) (hda : ∀ c ∈ a, c.isDigit = true)
    (hlt : a.length < b.length) : valDigits a < valDigits b := by
  cases b with
  | nil => simp at hlt
  | cons y ys =>
    have hy0 : y ≠ '0' := by
      rcases hcanB with h0 | h0
      · exfalso
        have hb1 : ys = [] := by
          have := congrArg List.length h0
          simp at this
          exact this
        subst hb1
        simp only [List.length_cons, List.length_nil] at hlt
        exact hane (List.length_eq_zero.mp (by omega))
      · simp only [List.head?_cons, ne_eq, Option.some.injEq] at h0
        exact h0
    have hbig := valDigits_ge (hdb y (List.mem_cons_self y ys)) hy0 (l := ys)
    have hsmall := valDigits_lt hda
    have hpow : (10 : Nat) ^ a.length ≤ 10 ^ ys.length := by
      apply Nat.pow_le_pow_right (by omega)
      simp only [List.length_cons] at hlt
      omega
    omega

/-- On canonical numeric identifiers (`0`, or no leading zero) the decimal
value determines the string. -/
theorem valDigits_inj_canon {a b : List Char}
    (ha : validPreIdent a = true) (hb : validPreIdent b = true)
    (hda : a.all Char.isDigit = true) (hdb : b.all Char.isDigit = true)
    (hv : valDigits a = valDigits b) : a = b := by
  have hda' : ∀ c ∈ a, c.isDigit = true := List.all_eq_true.mp hda
  have hdb' : ∀ c ∈ b, c.isDigit = true := List.all_eq_true.mp hdb
  obtain ⟨hane, hcanA⟩ := validPreIdent_props ha hda
  obtain ⟨hbne, hcanB⟩ := validPreIdent_props hb hdb
  rcases Nat.lt_trichotomy a.length b.length with hlt | heq | hgt
  · exact absurd hv (by have := canon_len_lt_val hane hcanB hdb' hda' hlt; omega)
  · exact valDigits_inj_same_len hda' hdb' heq hv
  · exact absurd hv (by have := canon_len_lt_val hbne hcanA hda' hdb' hgt; omega)
/-- On canonical identifiers a `convert` tie means equal strings. -/
theorem tagCmp_zero_canon {p q : List Char}
    (hp : validPreIdent p = true) (hq : validPreIdent q = true)
    (h : tagCmp (convertId p) (convertId q) = 0) : p = q := by
  simp only [convertId] at h
  by_cases hdp : isDigits p = true <;> by_cases hdq : isDigits q = true
  · rw [if_pos hdp, if_pos hdq] at h
    simp only [tagCmp, cmpN_eq_zero_iff] at h
    simp only [isDigits, Bool.and_eq_true] at hdp hdq
    exact valDigits_inj_canon hp hq hdp.2 hdq.2 h
  · rw [if_pos hdp, if_neg hdq] at h
    simp [tagCmp] at h
  · rw [if_neg hdp, if_pos hdq] at h
    simp [tagCmp] at h
  · rw [if_neg hdp, if_neg hdq] at h
    simp only [tagCmp] at h
    exact lexCmpChars_eq_zero h

/-!  ### `_nat_cmp` agrees with lexicographic comparison on canonical input -/

theorem splitOnChar_ne_nil (c : Char) (l : List Char) : splitOnChar c l ≠ [] := by
  cases l with
  | nil => simp [splitOnChar]
  | cons x xs =>
    simp only [splitOnChar]
    rcases h : splitOnChar c xs with - | ⟨h', t⟩
    · simp
    · split_ifs <;> simp

theorem joinWithChar_cons_cons (c : Char) (x : List Char) (h : List Char)
    (t : List (List Char)) :
    joinWithChar c ((x ++ h) :: t) = x ++ joinWithChar c (h :: t) := by
  cases t <;> simp [joinWithChar]

theorem joinWithChar_splitOnChar (c : Char) (l : List Char) :
    joinWithChar c (splitOnChar c l) = l := by
  induction l with
  | nil => rfl
  | cons x xs ih =>
    rcases h : splitOnChar c xs with - | ⟨h', t⟩
    · exact absurd h (splitOnChar_ne_nil c xs)
    · have e : splitOnChar c (x :: xs) =
          if x = c then [] :: h' :: t else (x :: h') :: t := by
        simp only [splitOnChar, h]
      rw [e]
      rw [h] at ih
      by_cases hx : x = c
      · rw [if_pos hx]
        show c :: joinWithChar _ (h' :: t) = x :: xs
        rw [ih, hx]
      · rw [if_neg hx]
        have e2 := joinWithChar_cons_cons c [x] h' t
        simp only [List.singleton_append] at e2
        rw [e2, ih]

theorem dotLen_nil : dotLen [] = 0 := rfl

theorem dotLen_single (x : List Char) : dotLen [x] = x.length := rfl

theorem dotLen_cons₂ (x h : List Char) (t : List (List Char)) :
    dotLen (x :: h :: t) = x.length + 1 + dotLen (h :: t) := by
  simp only [dotLen, joinWithChar, List.length_append, List.length_cons]
  omega

/-- Every identifier of a valid list is non-empty. -/
theorem validPreIdent_ne_nil {q : List Char} (h : validPreIdent q = true) : q ≠ [] := by
  simp only [validPreIdent, Bool.and_eq_true, Bool.not_eq_true'] at h
  intro he
  subst he
  simp at h

theorem dotLen_pos {A : List (List Char)} (hA : ∀ q ∈ A, validPreIdent q = true)
    (hne : A ≠ []) : 1 ≤ dotLen A := by
  cases A with
  | nil => exact absurd rfl hne
  | cons x t =>
    have hx : x ≠ [] := validPreIdent_ne_nil (hA x (List.mem_cons_self x t))
    have hlen : 1 ≤ x.length := by
      cases x with
      | nil => exact absurd rfl hx
      | cons _ _ => simp
    cases t with
    | nil => rw [dotLen_single]; exact hlen
    | cons h' t' => rw [dotLen_cons₂]; omega

theorem cmpN_dotLen_cons (x : List Char) {A B : List (List Char)}
    (hA : ∀ q ∈ A, validPreIdent q = true) (hB : ∀ q ∈ B, validPreIdent q = true) :
    cmpN (dotLen (x :: A)) (dotLen (x :: B)) = cmpN (dotLen A) (dotLen B) := by
  cases A with
  | nil =>
    cases B with
    | nil => rw [cmpN_refl, cmpN_refl]
    | cons bh bt =>
      have h1 := dotLen_pos hB (by simp)
      rw [dotLen_single, dotLen_cons₂, dotLen_nil]
      simp only [cmpN]
      split_ifs <;> omega
  | cons ah at' =>
    cases B with
    | nil =>
      have h1 := dotLen_pos hA (by simp)
      rw [dotLen_single, dotLen_cons₂, dotLen_nil]
      simp only [cmpN]
      split_ifs <;> omega
    | cons bh bt =>
      rw [dotLen_cons₂, dotLen_cons₂]
      simp only [cmpN]
      split_ifs <;> omega

/-- On canonical identifier lists the `_nat_cmp` loop with string-length
fallback computes exactly the lexicographic comparison. -/
theorem natCmpGo_eq_lex : ∀ (A B : List (List Char)),
    (∀ q ∈ A, validPreIdent q = true) → (∀ q ∈ B, validPreIdent q = true) →
    natCmpGo (A.map convertId) (B.map convertId) (cmpN (dotLen A) (dotLen B)) =
      lexCmpIds (A.map convertId) (B.map convertId)
  | [], [], _, _ => by
    simp [natCmpGo, lexCmpIds, lexList, dotLen_nil, cmpN_refl]
  | [], b :: bt, _, hB => by
    have h1 := dotLen_pos hB (by simp)
    simp only [List.map_nil, List.map_cons, natCmpGo, lexCmpIds, lexList, dotLen_nil]
    simp only [cmpN]
    split_ifs <;> omega
  | a :: at', [], hA, _ => by
    have h1 := dotLen_pos hA (by simp)
    simp only [List.map_nil, List.map_cons, natCmpGo, lexCmpIds, lexList, dotLen_nil]
    simp only [cmpN]
    split_ifs <;> omega
  | a :: at', b :: bt, hA, hB => by
    have hA' : ∀ q ∈ at', validPreIdent q = true :=
      fun q hq => hA q (List.mem_cons_of_mem a hq)
    have hB' : ∀ q ∈ bt, validPreIdent q = true :=
      fun q hq => hB q (List.mem_cons_of_mem b hq)
    simp only [List.map_cons, natCmpGo, lexCmpIds, lexList]
    by_cases hc : tagCmp (convertId a) (convertId b) = 0
    · rw [if_pos hc, if_pos hc]
      have hab : a = b :=
        tagCmp_zero_canon (hA a (List.mem_cons_self a at')) (hB b (List.mem_cons_self b bt)) hc
      subst hab
      rw [cmpN_dotLen_cons a hA' hB']
      exact natCmpGo_eq_lex at' bt hA' hB'
    · rw [if_neg hc, if_neg hc]

theorem natCmp_canon {sa sb : String} (ha : StrCanon sa) (hb : StrCanon sb) :
    natCmp (some sa) (some sb) = lexCmpIds (idsOf sa) (idsOf sb) := by
  have la : sa.data.length = dotLen (splitOnChar '.' sa.data) := by
    rw [dotLen, joinWithChar_splitOnChar]
  have lb : sb.data.length = dotLen (splitOnChar '.' sb.data) := by
    rw [dotLen, joinWithChar_splitOnChar]
  simp only [natCmp, Option.getD_some, idsOf]
  rw [la, lb]
  exact natCmpGo_eq_lex _ _ ha hb

theorem natCmpGo_self : ∀ (l : List PreId) (fb : Int), natCmpGo l l fb = fb
  | [], _ => rfl
  | x :: xs, fb => by
    simp only [natCmpGo, tagCmp_refl x, if_pos]
    exact natCmpGo_self xs fb

theorem natCmp_self (x : Option String) : natCmp x x = 0 := by
  simp only [natCmp, natCmpGo_self, cmpN_refl]

theorem natCmpGo_antisym : ∀ (l m : List PreId) (fb fb' : Int), fb = -fb' →
    natCmpGo l m fb = -(natCmpGo m l fb')
  | [], [], _, _, h => h
  | [], _ :: _, _, _, h => h
  | _ :: _, [], _, _, h => h
  | x :: xs, y :: ys, fb, fb', h => by
    simp only [natCmpGo]
    by_cases hc : tagCmp x y = 0
    · have hc' : tagCmp y x = 0 := by rw [tagCmp_antisym y x] at *; omega
      rw [if_pos hc, if_pos hc']
      exact natCmpGo_antisym xs ys fb fb' h
    · have hc' : ¬ tagCmp y x = 0 := by rw [tagCmp_antisym y x] at *; omega
      rw [if_neg hc, if_neg hc']
      exact tagCmp_antisym x y

theorem natCmp_antisym (x y : Option String) : natCmp x y = -(natCmp y x) := by
  simp only [natCmp]
  exact natCmpGo_antisym _ _ _ _ (cmpN_antisym _ _)

/-!  ### Laws of `SemVer.compare` -/

theorem compareSV_eq (x y : SemVer) (strict : Bool) :
    x.compareSV y strict =
      (if cmp3 (x.major, x.minor, x.patch) (y.major, y.minor, y.patch) ≠ 0 || strict
       then cmp3 (x.major, x.minor, x.patch) (y.major, y.minor, y.patch)
       else preCmp x.pre y.pre) := by
  simp only [SemVer.compareSV, preCmp]
  by_cases h : cmp3 (x.major, x.minor, x.patch) (y.major, y.minor, y.patch) ≠ 0 || strict
  · rw [if_pos h, if_pos h]
  · rw [if_neg h, if_neg h]
    have h0 : cmp3 (x.major, x.minor, x.patch) (y.major, y.minor, y.patch) = 0 := by
      simp only [Bool.or_eq_true, decide_eq_true_eq, not_or] at h
      by_contra hc
      exact h.elim (fun h1 => absurd hc (by simpa using h1))
    rw [h0]

theorem compareSV_refl (v : SemVer) (strict : Bool) : v.compareSV v strict = 0 := by
  rw [compareSV_eq]
  have h0 : cmp3 (v.major, v.minor, v.patch) (v.major, v.minor, v.patch) = 0 :=
    (cmp3_eq_zero_iff _ _).mpr rfl
  rw [h0]
  split_ifs with h1
  · rfl
  · simp only [preCmp]
    split_ifs <;> first | rfl | exact natCmp_self _ | simp_all

theorem preCmp_antisym (a b : Option String) : preCmp a b = -(preCmp b a) := by
  simp only [preCmp]
  by_cases ta : truthyStr a = true <;> by_cases tb : truthyStr b = true <;>
    simp only [ta, tb, Bool.not_true, Bool.not_false, Bool.and_self, Bool.and_false,
      Bool.false_and, Bool.and_true, Bool.true_and, if_true, if_false]
  · rw [if_neg (by simp), if_neg (by simp), if_neg (by simp), if_neg (by simp)]
    exact natCmp_antisym a b
  · rw [if_neg (by simp), if_neg (by simp)]
    norm_num
  · rw [if_neg (by simp), if_neg (by simp)]
    norm_num
  · norm_num

theorem compareSV_antisym (x y : SemVer) (strict : Bool) :
    x.compareSV y strict = -(y.compareSV x strict) := by
  rw [compareSV_eq, compareSV_eq]
  have ha := cmp3_antisym (x.major, x.minor, x.patch) (y.major, y.minor, y.patch)
  by_cases h : cmp3 (x.major, x.minor, x.patch) (y.major, y.minor, y.patch) ≠ 0 || strict
  · have h' : cmp3 (y.major, y.minor, y.patch) (x.major, x.minor, x.patch) ≠ 0 || strict := by
      rcases Bool.or_eq_true _ _ |>.mp h with h1 | h1
      · simp only [decide_eq_true_eq] at h1
        simp only [Bool.or_eq_true, decide_eq_true_eq]
        exact Or.inl (by omega)
      · simp [h1]
    rw [if_pos h, if_pos h']
    exact ha
  · have h' : ¬ (cmp3 (y.major, y.minor, y.patch) (x.major, x.minor, x.patch) ≠ 0 || strict) := by
      simp only [Bool.or_eq_true, decide_eq_true_eq, not_or] at h ⊢
      exact ⟨by have := h.1; omega, h.2⟩
    rw [if_neg h, if_neg h']
    exact preCmp_antisym x.pre y.pre

theorem truthyStr_of_canon {p : String} (h : p ≠ "") : truthyStr (some p) = true := by
  simp [truthyStr, h]

theorem preCmp_none_none : preCmp none none = 0 := by
  simp [preCmp, truthyStr]

theorem preCmp_none_some {p : String} (h : p ≠ "") : preCmp none (some p) = 1 := by
  simp [preCmp, truthyStr, h]

theorem preCmp_some_none {p : String} (h : p ≠ "") : preCmp (some p) none = -1 := by
  simp [preCmp, truthyStr, h]

theorem preCmp_some_some {p q : String} (hp : p ≠ "") (hq : q ≠ "") :
    preCmp (some p) (some q) = natCmp (some p) (some q) := by
  simp [preCmp, truthyStr, hp, hq]

theorem natCmp_trans_ge_canon {pa pb pc : String}
    (ha : StrCanon pa) (hb : StrCanon pb) (hc : StrCanon pc)
    (h1 : 0 ≤ natCmp (some pa) (some pb)) (h2 : 0 ≤ natCmp (some pb) (some pc)) :
    0 ≤ natCmp (some pa) (some pc) := by
  rw [natCmp_canon ha hb] at h1
  rw [natCmp_canon hb hc] at h2
  rw [natCmp_canon ha hc]
  exact lexCmpIds_trans_ge _ _ _ h1 h2

theorem preCmp_trans_ge {a b c : Option String}
    (hA : ∀ p, a = some p → p ≠ "" ∧ StrCanon p)
    (hB : ∀ p, b = some p → p ≠ "" ∧ StrCanon p)
    (hC : ∀ p, c = some p → p ≠ "" ∧ StrCanon p)
    (h1 : 0 ≤ preCmp a b) (h2 : 0 ≤ preCmp b c) : 0 ≤ preCmp a c := by
  rcases a with - | pa <;> rcases b with - | pb <;> rcases c with - | pc
  · rw [preCmp_none_none]
  · rw [preCmp_none_some (hC pc rfl).1]
    omega
  · rw [preCmp_none_none]
  · rw [preCmp_none_some (hC pc rfl).1]
    omega
  · rw [preCmp_some_none (hA pa rfl).1] at h1
    omega
  · rw [preCmp_some_none (hA pa rfl).1] at h1
    omega
  · rw [preCmp_some_none (hB pb rfl).1] at h2
    omega
  · obtain ⟨hpa, hca⟩ := hA pa rfl
    obtain ⟨hpb, hcb⟩ := hB pb rfl
    obtain ⟨hpc, hcc⟩ := hC pc rfl
    rw [preCmp_some_some hpa hpb] at h1
    rw [preCmp_some_some hpb hpc] at h2
    rw [preCmp_some_some hpa hpc]
    exact natCmp_trans_ge_canon hca hcb hcc h1 h2

theorem compareSV_trans_ge {x y z : SemVer} (hx : SVCanon x) (hy : SVCanon y)
    (hz : SVCanon z) (h1 : 0 ≤ x.compareSV y false) (h2 : 0 ≤ y.compareSV z false) :
    0 ≤ x.compareSV z false := by
  rw [compareSV_eq] at h1 h2 ⊢
  simp only [Bool.or_false] at h1 h2 ⊢
  by_cases e1 : cmp3 (x.major, x.minor, x.patch) (y.major, y.minor, y.patch) = 0 <;>
    by_cases e2 : cmp3 (y.major, y.minor, y.patch) (z.major, z.minor, z.patch) = 0
  · have q1 := (cmp3_eq_zero_iff _ _).mp e1
    have q2 := (cmp3_eq_zero_iff _ _).mp e2
    have e3 : cmp3 (x.major, x.minor, x.patch) (z.major, z.minor, z.patch) = 0 := by
      rw [cmp3_eq_zero_iff, q1, q2]
    rw [if_neg (by simp [e1])] at h1
    rw [if_neg (by simp [e2])] at h2
    rw [if_neg (by simp [e3])]
    exact preCmp_trans_ge hx hy hz h1 h2
  · have q1 := (cmp3_eq_zero_iff _ _).mp e1
    have e3 : cmp3 (x.major, x.minor, x.patch) (z.major, z.minor, z.patch) =
        cmp3 (y.major, y.minor, y.patch) (z.major, z.minor, z.patch) := by rw [q1]
    rw [if_pos (by simp [e2])] at h2
    rw [if_pos (by simp [e3, e2]), e3]
    exact h2
  · have q2 := (cmp3_eq_zero_iff _ _).mp e2
    have e3 : cmp3 (x.major, x.minor, x.patch) (z.major, z.minor, z.patch) =
        cmp3 (x.major, x.minor, x.patch) (y.major, y.minor, y.patch) := by rw [q2]
    rw [if_pos (by simp [e1])] at h1
    rw [if_pos (by simp [e3, e1]), e3]
    exact h1
  · rw [if_pos (by simp [e1])] at h1
    rw [if_pos (by simp [e2])] at h2
    have hz1 : cmp3 (x.major, x.minor, x.patch) (y.major, y.minor, y.patch) = 0 ∨
        0 < cmp3 (x.major, x.minor, x.patch) (y.major, y.minor, y.patch) := by omega
    have hp1 : 0 < cmp3 (x.major, x.minor, x.patch) (y.major, y.minor, y.patch) := by
      rcases hz1 with h | h
      · exact absurd h e1
      · exact h
    have hz2 : cmp3 (y.major, y.minor, y.patch) (z.major, z.minor, z.patch) = 0 ∨
        0 < cmp3 (y.major, y.minor, y.patch) (z.major, z.minor, z.patch) := by omega
    have hp2 : 0 < cmp3 (y.major, y.minor, y.patch) (z.major, z.minor, z.patch) := by
      rcases hz2 with h | h
      · exact absurd h e2
      · exact h
    have hp3 : 0 < cmp3 (x.major, x.minor, x.patch) (z.major, z.minor, z.patch) := by
      rw [cmp3_pos_iff] at hp1 hp2 ⊢
      omega
    rw [if_pos (by simp only [ne_eq, decide_eq_true_eq]; omega)]
    omega

theorem parseSemVer_canon {s : String} {v : SemVer} (h : parseSemVer s = some v) :
    SVCanon v := by
  intro p hp
  simp only [parseSemVer] at h
  split at h
  case _ ma mi pa heq =>
    split at h
    case _ hnum =>
      split at h
      case _ hok =>
        rcases e2 : (splitFirst '-' (splitFirst '+' s.data).1).2 with - | p0
        · rw [e2] at h
          simp only [Option.map_none'] at h
          cases h
          simp at hp
        · rw [e2] at h
          simp only [Option.map_some'] at h
          rw [e2] at hok
          cases h
          simp only [Option.some.injEq] at hp
          subst hp
          simp only [Bool.and_eq_true] at hok
          have hpre := hok.1
          constructor
          · intro hpe
            have : p0 = [] := by
              have := congrArg String.data hpe
              simpa using this
            subst this
            simp [splitOnChar, validPreIdent] at hpre
          · intro q hq
            simp only [String.data] at hq
            exact (List.all_eq_true.mp hpre) q hq
      case _ => exact absurd h (by simp)
    case _ => exact absurd h (by simp)
  case _ => exact absurd h (by simp)

/-!  ### `find_matching` computes a maximum (Claim C1) -/

theorem Good_extend_false {pattern : String} {yy : Bool} {P : List (String × Record)}
    {m : Option (SemVer × Record)} {x : String × Record}
    (hg : Good pattern yy P m) (hx : matchB pattern yy x = false) :
    Good pattern yy (P ++ [x]) m := by
  rcases m with - | ⟨w, rec⟩
  · intro p hp
    rcases List.mem_append.mp hp with h | h
    · exact hg p h
    · rw [List.mem_singleton.mp h]; exact hx
  · obtain ⟨⟨v, hv, hparse, hmatch, hyank⟩, hmax⟩ := hg
    refine ⟨⟨v, List.mem_append_left _ hv, hparse, hmatch, hyank⟩, ?_⟩
    intro p hp hpb w' hw'
    rcases List.mem_append.mp hp with h | h
    · exact hmax p h hpb w' hw'
    · rw [List.mem_singleton.mp h] at hpb
      exact absurd hpb (by rw [hx]; simp)

theorem matchB_true_of {pattern : String} {yy : Bool} {v : String} {item : Record}
    {w : SemVer} (hp : parseSemVer v = some w) (hm : w.matchReq pattern = some true)
    (hy : item.yanked = yy) : matchB pattern yy (v, item) = true := by
  simp [matchB, hp, hm, hy]

theorem Good_new {pattern : String} {yy : Bool} {P : List (String × Record)}
    {v : String} {item : Record} {w : SemVer}
    (hg : Good pattern yy P none) (hp : parseSemVer v = some w)
    (hm : w.matchReq pattern = some true) (hy : item.yanked = yy) :
    Good pattern yy (P ++ [(v, item)]) (some (w, item)) := by
  refine ⟨⟨v, List.mem_append_right _ (List.mem_singleton.mpr rfl), hp, hm, hy⟩, ?_⟩
  intro p hq hqb w' hw'
  rcases List.mem_append.mp hq with h | h
  · exact absurd hqb (by rw [hg p h]; simp)
  · rw [List.mem_singleton.mp h] at hw'
    simp only at hw'
    rw [hp] at hw'
    cases hw'
    rw [compareSV_refl]

theorem Good_replace {pattern : String} {yy : Bool} {P : List (String × Record)}
    {w0 : SemVer} {rec0 : Record} {v : String} {item : Record} {w : SemVer}
    (hg : Good pattern yy P (some (w0, rec0))) (hp : parseSemVer v = some w)
    (hm : w.matchReq pattern = some true) (hy : item.yanked = yy)
    (hgt : 0 < w.compareSV w0 false) :
    Good pattern yy (P ++ [(v, item)]) (some (w, item)) := by
  obtain ⟨⟨v0, hv0, hparse0, hmatch0, hyank0⟩, hmax⟩ := hg
  refine ⟨⟨v, List.mem_append_right _ (List.mem_singleton.mpr rfl), hp, hm, hy⟩, ?_⟩
  intro p hq hqb w' hw'
  rcases List.mem_append.mp hq with h | h
  · have h0 := hmax p h hqb w' hw'
    exact compareSV_trans_ge (parseSemVer_canon hp) (parseSemVer_canon hparse0)
      (parseSemVer_canon hw') (by omega) h0
  · rw [List.mem_singleton.mp h] at hw'
    simp only at hw'
    rw [hp] at hw'
    cases hw'
    rw [compareSV_refl]

theorem Good_keep {pattern : String} {yy : Bool} {P : List (String × Record)}
    {w0 : SemVer} {rec0 : Record} {v : String} {item : Record} {w : SemVer}
    (hg : Good pattern yy P (some (w0, rec0))) (hp : parseSemVer v = some w)
    (hm : w.matchReq pattern = some true) (hy : item.yanked = yy)
    (hle : ¬ 0 < w.compareSV w0 false) :
    Good pattern yy (P ++ [(v, item)]) (some (w0, rec0)) := by
  obtain ⟨⟨v0, hv0, hparse0, hmatch0, hyank0⟩, hmax⟩ := hg
  refine ⟨⟨v0, List.mem_append_left _ hv0, hparse0, hmatch0, hyank0⟩, ?_⟩
  intro p hq hqb w' hw'
  rcases List.mem_append.mp hq with h | h
  · exact hmax p h hqb w' hw'
  · rw [List.mem_singleton.mp h] at hw'
    simp only at hw'
    rw [hp] at hw'
    cases hw'
    have ha := compareSV_antisym w w0 false
    omega

theorem any_true_of_mem {α : Type} {l : List α} {p : α → Bool} {x : α}
    (hx : x ∈ l) (hpx : p x = true) : l.any p = true :=
  List.any_eq_true.mpr ⟨x, hx, hpx⟩

theorem fmGo_spec (pattern : String) (rest : List (String × Record)) :
    ∀ (P : List (String × Record)) (m my : Option (SemVer × Record)) (r : Record),
    Good pattern false P m → Good pattern true P my →
    findMatchingGo pattern rest m my ((P.getLast?).map (fun q => q.2)) = some r →
    ((P ++ rest).any (matchB pattern false) = true → BestMatch pattern false (P ++ rest) r) ∧
    ((P ++ rest).any (matchB pattern false) = false →
      (P ++ rest).any (matchB pattern true) = true → BestMatch pattern true (P ++ rest) r) ∧
    ((P ++ rest).any (matchB pattern false) = false →
      (P ++ rest).any (matchB pattern true) = false →
      ∃ q, (P ++ rest).getLast? = some q ∧ r = q.2) := by
  induction rest with
  | nil =>
    intro P m my r hm hmy h
    simp only [List.append_nil]
    rcases m with - | ⟨w, rec⟩
    · rcases my with - | ⟨wy, recy⟩
      · -- no match at all: the fallback returns the last record
        simp only [findMatchingGo, Option.isSome_none, Bool.false_and, if_neg] at h
        refine ⟨?_, ?_, ?_⟩
        · intro hany
          obtain ⟨x, hx, hpx⟩ := List.any_eq_true.mp hany
          exact absurd hpx (by rw [hm x hx]; simp)
        · intro _ hany
          obtain ⟨x, hx, hpx⟩ := List.any_eq_true.mp hany
          exact absurd hpx (by rw [hmy x hx]; simp)
        · intro _ _
          rcases hP : P.getLast? with - | q
          · rw [hP] at h; simp at h
          · rw [hP] at h
            simp only [Option.map_some'] at h
            exact ⟨q, rfl, (Option.some.inj h).symm⟩
      · -- only a yanked match: return it
        simp only [findMatchingGo, Option.isSome_some, Option.isNone_none, Bool.and_self,
          if_pos] at h
        obtain ⟨⟨v, hv, hp, hmt, hy⟩, hmax⟩ := hmy
        have hr : recy = r := Option.some.inj h
        subst hr
        refine ⟨?_, ?_, ?_⟩
        · intro hany
          obtain ⟨x, hx, hpx⟩ := List.any_eq_true.mp hany
          exact absurd hpx (by rw [hm x hx]; simp)
        · intro _ _
          exact ⟨v, wy, hv, hp, hmt, hy, hmax⟩
        · intro _ hany
          exact absurd (any_true_of_mem hv (matchB_true_of hp hmt hy)) (by rw [hany]; simp)
    · -- a live match exists: return it
      have hred : findMatchingGo pattern [] (some (w, rec)) my ((P.getLast?).map (fun q => q.2))
          = some rec := by
        simp [findMatchingGo]
      rw [hred] at h
      obtain ⟨⟨v, hv, hp, hmt, hy⟩, hmax⟩ := hm
      have hr : rec = r := Option.some.inj h
      subst hr
      refine ⟨?_, ?_, ?_⟩
      · intro _
        exact ⟨v, w, hv, hp, hmt, hy, hmax⟩
      · intro hany _
        exact absurd (any_true_of_mem hv (matchB_true_of hp hmt hy)) (by rw [hany]; simp)
      · intro hany _
        exact absurd (any_true_of_mem hv (matchB_true_of hp hmt hy)) (by rw [hany]; simp)
  | cons x rest ih =>
    intro P m my r hm hmy h
    obtain ⟨v, item⟩ := x
    rw [List.append_cons]
    cases hparse : parseSemVer v with
    | none =>
      simp only [findMatchingGo, hparse] at h
      exact Option.noConfusion h
    | some w =>
      cases hmatch : w.matchReq pattern with
      | none =>
        simp only [findMatchingGo, hparse, hmatch] at h
        exact Option.noConfusion h
      | some b =>
        have hlast : ((P ++ [(v, item)]).getLast?).map (fun q : String × Record => q.2)
            = some item := by
          simp [List.getLast?_concat]
        cases b with
        | false =>
          simp only [findMatchingGo, hparse, hmatch] at h
          have hb1 : matchB pattern false (v, item) = false := by
            simp [matchB, hparse, hmatch]
          have hb2 : matchB pattern true (v, item) = false := by
            simp [matchB, hparse, hmatch]
          exact ih (P ++ [(v, item)]) m my r (Good_extend_false hm hb1)
            (Good_extend_false hmy hb2) (by rw [hlast]; exact h)
        | true =>
          cases hyk : item.yanked with
          | false =>
            have hbY : matchB pattern true (v, item) = false := by
              simp [matchB, hparse, hmatch, hyk]
            rcases m with - | ⟨w0, rec0⟩
            · simp only [findMatchingGo, hparse, hmatch, hyk] at h
              exact ih (P ++ [(v, item)]) (some (w, item)) my r
                (Good_new hm hparse hmatch hyk) (Good_extend_false hmy hbY)
                (by rw [hlast]; exact h)
            · simp only [findMatchingGo, hparse, hmatch, hyk] at h
              by_cases hgt : w.compareSV w0 false > 0
              · rw [if_pos hgt] at h
                exact ih (P ++ [(v, item)]) (some (w, item)) my r
                  (Good_replace hm hparse hmatch hyk hgt) (Good_extend_false hmy hbY)
                  (by rw [hlast]; exact h)
              · rw [if_neg hgt] at h
                exact ih (P ++ [(v, item)]) (some (w0, rec0)) my r
                  (Good_keep hm hparse hmatch hyk hgt) (Good_extend_false hmy hbY)
                  (by rw [hlast]; exact h)
          | true =>
            have hbY : matchB pattern false (v, item) = false := by
              simp [matchB, hparse, hmatch, hyk]
            rcases my with - | ⟨w0, rec0⟩
            · simp only [findMatchingGo, hparse, hmatch, hyk] at h
              exact ih (P ++ [(v, item)]) m (some (w, item)) r
                (Good_extend_false hm hbY) (Good_new hmy hparse hmatch hyk)
                (by rw [hlast]; exact h)
            · simp only [findMatchingGo, hparse, hmatch, hyk] at h
              by_cases hgt : w.compareSV w0 false > 0
              · rw [if_pos hgt] at h
                exact ih (P ++ [(v, item)]) m (some (w, item)) r
                  (Good_extend_false hm hbY) (Good_replace hmy hparse hmatch hyk hgt)
                  (by rw [hlast]; exact h)
              · rw [if_neg hgt] at h
                exact ih (P ++ [(v, item)]) m (some (w0, rec0)) r
                  (Good_extend_false hm hbY) (Good_keep hmy hparse hmatch hyk hgt)
                  (by rw [hlast]; exact h)

/-- C1: for every requirement pattern and non-empty version record map (in
index-file insertion order), when `find_matching` returns a record it is:
the SemVer-order maximum among records matching the pattern with
`yanked == false` when at least one exists; otherwise the SemVer-order
maximum among matching records with `yanked == true` when at least one
exists; otherwise the last record of the map in iteration order. -/
theorem c1_findMatching_best (pattern : String) (M : List (String × Record)) (r : Record)
    (_hne : M ≠ []) (h : findMatching pattern M = some r) :
    (M.any (matchB pattern false) = true → BestMatch pattern false M r) ∧
    (M.any (matchB pattern false) = false → M.any (matchB pattern true) = true →
      BestMatch pattern true M r) ∧
    (M.any (matchB pattern false) = false → M.any (matchB pattern true) = false →
      ∃ q, M.getLast? = some q ∧ r = q.2) := by
  have hspec := fmGo_spec pattern M [] none none r
    (by intro p hp; cases hp) (by intro p hp; cases hp) h
  simpa using hspec

/-- Concrete instance of C1: the S5 scenario `[1.0.0 live, 1.1.0 yanked]`
under `^1` selects the live `1.0.0` as the best live match. -/
theorem c1_findMatching_best_witness :
    BestMatch "^1" false [("1.0.0", ⟨"c", "1.0.0", false, []⟩), ("1.1.0", ⟨"c", "1.1.0", true, []⟩)]
      ⟨"c", "1.0.0", false, []⟩ :=
  (c1_findMatching_best "^1"
      [("1.0.0", ⟨"c", "1.0.0", false, []⟩), ("1.1.0", ⟨"c", "1.1.0", true, []⟩)]
      ⟨"c", "1.0.0", false, []⟩ (by decide) (by decide)).1 (by decide)

/-!  ## Claims C10 and C2 -/

/-- C10: `find_matching` applied to an empty version record map never
returns a value — the no-match fallback subscripts the absent last record
and the call raises; a resolver step that reaches the selector with an
empty index record map (an index file with no lines) propagates the
exception instead of degrading. -/
theorem c10_findMatching_empty :
    (∀ pattern, findMatching pattern [] = none) ∧
    processCrate [] (fun n => if n = "a" then some [] else none) ⟨[], []⟩ "a" ["^1"] = none :=
  ⟨fun _ => rfl, by decide⟩

/-- C2 counterexample: with `("b", "1.0.0")` already in `seen`, processing
crate `a` (whose selected record depends on package `b`) still enqueues
`("b", "^1")` into the worklist — the membership test `name not in seen`
compares the string `"b"` against `(name, version)` tuples and never
succeeds, so the dependency is re-enqueued although its package is in
`seen` at some version. -/
theorem c2_counterexample :
    ("b", "1.0.0") ∈ ([("b", "1.0.0")] : List (String × String)) ∧
    processCrate [] c2Index ⟨[], [("b", "1.0.0")]⟩ "a" ["^1"] =
      some ⟨[("b", ["^1"])], [("b", "1.0.0"), ("a", "1.0.0")]⟩ :=
  ⟨by decide, by decide⟩

/-- C2 (amended): during dependency expansion every dependency of a valid
kind is enqueued unconditionally — `(dep_name, dep.req)` is passed to
`add` whatever `seen` contains, because the test `name not in seen`
compares a string against `(name, version)` tuples and never succeeds (the
`assert False` arm is unreachable). -/
theorem c2_expandDep_always_enqueues (excl : List String) (seen : List (String × String))
    (crates : List (String × List String)) (d : Dep)
    (hk : d.kind = "normal" ∨ d.kind = "build" ∨ d.kind = "dev") :
    expandDep excl seen crates d = some (addCrate excl crates (depName d) d.req) := by
  have hmem : (seen.any fun slug => pyEqStrPair (depName d) slug) = false := by
    simp [pyEqStrPair]
  simp only [expandDep, hmem, Bool.false_eq_true, if_false]
  rcases hk with h | h | h <;> simp [h]

/-- Concrete instance of the amended C2. -/
theorem c2_expandDep_always_enqueues_witness :
    expandDep [] [("b", "1.0.0")] [] ⟨"b", "^1", "normal", false, none⟩ =
      some (addCrate [] [] (depName ⟨"b", "^1", "normal", false, none⟩) "^1") :=
  c2_expandDep_always_enqueues [] [("b", "1.0.0")] [] ⟨"b", "^1", "normal", false, none⟩
    (Or.inl rfl)

theorem dropWhile_eq_self_of_false {p : Char → Bool} :
    ∀ {l : List Char}, (∀ x ∈ l, p x = false) → l.dropWhile p = l
  | [], _ => rfl
  | x :: xs, h => by
    rw [List.dropWhile_cons, h x (List.mem_cons_self x xs)]
    simp

theorem pyStrip_eq_self {l : List Char} (h : ∀ x ∈ l, x.isWhitespace = false) :
    pyStrip l = l := by
  unfold pyStrip
  rw [dropWhile_eq_self_of_false h,
    dropWhile_eq_self_of_false (fun x hx => h x (List.mem_reverse.mp hx)),
    List.reverse_reverse]

theorem splitOnChar_no_sep {c : Char} :
    ∀ {l : List Char}, (∀ x ∈ l, x ≠ c) → splitOnChar c l = [l]
  | [], _ => rfl
  | x :: xs, h => by
    have ih := splitOnChar_no_sep (fun y hy => h y (List.mem_cons_of_mem x hy))
    simp only [splitOnChar, ih]
    rw [if_neg (h x (List.mem_cons_self x xs))]

theorem splitOnChar_append_sep {c : Char} :
    ∀ (a b : List Char), (∀ x ∈ a, x ≠ c) →
      splitOnChar c (a ++ c :: b) = a :: splitOnChar c b
  | [], b, _ => by
    simp only [List.nil_append, splitOnChar]
    rcases h : splitOnChar c b with - | ⟨h', t⟩
    · exact absurd h (splitOnChar_ne_nil c b)
    · simp
  | x :: xs, b, h => by
    have ih := splitOnChar_append_sep xs b (fun y hy => h y (List.mem_cons_of_mem x hy))
    have e : splitOnChar c ((x :: xs) ++ c :: b) =
        (match splitOnChar c (xs ++ c :: b) with
         | [] => [[]]
         | hh :: t => if x = c then [] :: hh :: t else (x :: hh) :: t) := rfl
    rw [e, ih]
    show (if x = c then [] :: xs :: splitOnChar c b else (x :: xs) :: splitOnChar c b) =
      (x :: xs) :: splitOnChar c b
    rw [if_neg (h x (List.mem_cons_self x xs))]

/-- A decimal digit is not one of the requirement-syntax separator or
marker characters and is not whitespace. -/
theorem digit_not_special {c : Char} (h : c.isDigit = true) :
    c ≠ ',' ∧ c ≠ '.' ∧ c.isWhitespace = false := by
  refine ⟨?_, ?_, ?_⟩
  · intro h'; subst h'; exact absurd h (by decide)
  · intro h'; subst h'; exact absurd h (by decide)
  · by_contra hw
    simp only [Bool.not_eq_false] at hw
    simp only [Char.isWhitespace, Bool.or_eq_true, decide_eq_true_eq] at hw
    rcases hw with ((h' | h') | h') | h' <;> (subst h'; exact absurd h (by decide))

theorem validNum_isDigits {l : List Char} (h : validNum l = true) : isDigits l = true := by
  simp only [validNum, Bool.and_eq_true] at h
  exact h.1

theorem isDigits_mem {l : List Char} (h : isDigits l = true) : ∀ x ∈ l, x.isDigit = true := by
  simp only [isDigits, Bool.and_eq_true, List.all_eq_true] at h
  exact h.2

/-- A requirement string consisting of a single comma-free clause reduces
to the evaluation of that clause. -/
theorem matchReq_single_clause (v : SemVer) (pat : List Char)
    (hnc : ∀ x ∈ pat, x ≠ ',') :
    SemVer.matchReq v (String.mk pat) =
      (exprP v pat false).bind (fun b => if b = true then some true else some false) := by
  simp only [SemVer.matchReq]
  rw [splitOnChar_no_sep hnc]
  rfl

/-- A stripped clause starting with `^` evaluates through the caret
expansion, lower bound non-strict and upper bound strict. -/
theorem exprP_caret (v : SemVer) (pat : List Char) (s : Bool) (hs : pyStrip pat = pat)
    (hh : pat.head? = some '^') :
    exprP v pat s =
      (caretReq pat).bind (fun pr =>
        (exprPlain v pr.1 false).bind (fun b1 =>
          if b1 = true then exprPlain v pr.2 true else some false)) := by
  simp only [exprP, hs, hh]
  rfl

/-- A stripped clause starting with `~` evaluates through the tilde
expansion, lower bound non-strict and upper bound strict. -/
theorem exprP_tilde (v : SemVer) (pat : List Char) (s : Bool) (hs : pyStrip pat = pat)
    (hh : pat.head? = some '~') :
    exprP v pat s =
      (tildeReq pat).bind (fun pr =>
        (exprPlain v pr.1 false).bind (fun b1 =>
          if b1 = true then exprPlain v pr.2 true else some false)) := by
  simp only [exprP, hs, hh]
  rfl

theorem pyLStrip_eq_self {l : List Char} (h : ∀ x ∈ l, x.isWhitespace = false) :
    pyLStrip l = l :=
  dropWhile_eq_self_of_false h

theorem splitFirst_no_occ {c : Char} :
    ∀ {l : List Char}, (∀ x ∈ l, x ≠ c) → splitFirst c l = (l, none)
  | [], _ => rfl
  | x :: xs, h => by
    have ih := splitFirst_no_occ (fun y hy => h y (List.mem_cons_of_mem x hy))
    simp only [splitFirst, ih, if_neg (h x (List.mem_cons_self x xs))]

/-- The parser accepts a dotted triple of valid numeric components and
yields their decimal values with no prerelease and no build. -/
theorem parseSemVer_core (A B C : List Char)
    (hA : validNum A = true) (hB : validNum B = true) (hC : validNum C = true) :
    parseSemVer (String.mk (A ++ '.' :: B ++ '.' :: C)) =
      some ⟨valDigits A, valDigits B, valDigits C, none, none,
        String.mk (A ++ '.' :: B ++ '.' :: C)⟩ := by
  have hmem : ∀ x ∈ A ++ '.' :: B ++ '.' :: C, x.isDigit = true ∨ x = '.' := by
    intro x hx
    rcases List.mem_append.mp hx with h | h
    · rcases List.mem_append.mp h with h | h
      · exact Or.inl (isDigits_mem (validNum_isDigits hA) x h)
      · rcases List.mem_cons.mp h with h | h
        · exact Or.inr h
        · exact Or.inl (isDigits_mem (validNum_isDigits hB) x h)
    · rcases List.mem_cons.mp h with h | h
      · exact Or.inr h
      · exact Or.inl (isDigits_mem (validNum_isDigits hC) x h)
  have hplus : ∀ x ∈ A ++ '.' :: B ++ '.' :: C, x ≠ '+' := by
    intro x hx h
    subst h
    rcases hmem _ hx with hd | hd
    · exact absurd hd (by decide)
    · exact absurd hd (by decide)
  have hminus : ∀ x ∈ A ++ '.' :: B ++ '.' :: C, x ≠ '-' := by
    intro x hx h
    subst h
    rcases hmem _ hx with hd | hd
    · exact absurd hd (by decide)
    · exact absurd hd (by decide)
  have hsp : splitOnChar '.' (A ++ '.' :: B ++ '.' :: C) = [A, B, C] := by
    rw [show A ++ '.' :: B ++ '.' :: C = A ++ '.' :: (B ++ '.' :: C) from by simp,
      splitOnChar_append_sep A _
        (fun x hx => (digit_not_special (isDigits_mem (validNum_isDigits hA) x hx)).2.1),
      splitOnChar_append_sep B _
        (fun x hx => (digit_not_special (isDigits_mem (validNum_isDigits hB) x hx)).2.1),
      splitOnChar_no_sep
        (fun x hx => (digit_not_special (isDigits_mem (validNum_isDigits hC) x hx)).2.1)]
  have hd : (String.mk (A ++ '.' :: B ++ '.' :: C)).data = A ++ '.' :: B ++ '.' :: C := rfl
  have h1 : splitFirst '+' (A ++ '.' :: B ++ '.' :: C) =
      (A ++ '.' :: B ++ '.' :: C, none) := splitFirst_no_occ hplus
  have h2 : splitFirst '-' (A ++ '.' :: B ++ '.' :: C) =
      (A ++ '.' :: B ++ '.' :: C, none) := splitFirst_no_occ hminus
  simp only [parseSemVer, hd, h1, h2, hsp]
  simp [hA, hB, hC]

/-- The `<` branch of `_expr` on a clause whose literal starts with a
digit: pad the literal, parse it, and compare with the incoming `strict`
flag. -/
theorem exprTry_lt_reduce (v : SemVer) (a : Char) (R : List Char) (s : Bool)
    (ha : a.isDigit = true)
    (hws : ∀ x ∈ a :: R, x.isWhitespace = false)
    (hstar : ((a :: R).contains '*') = false) :
    exprTry v ('<' :: a :: R) s =
      match parseSemVer (String.mk (padLt (a :: R))) with
      | none => none
      | some o => some (decide (v.compareSV o s < 0)) := by
  have ha' : a ≠ '=' := by
    intro h; subst h; exact absurd ha (by decide)
  have hla : pyLStrip (a :: R) = a :: R := pyLStrip_eq_self hws
  simp only [exprTry, List.head?_cons, List.tail_cons, List.take_succ_cons, List.take_zero,
    List.take_nil, hla, hstar, ha, padLt]
  simp [ha', ha, hstar]

/-- The `=` branch of `_expr` on a clause whose literal starts with a
digit: string equality with the raw version is the fast path, otherwise
pad the literal, parse it, and compare `parts` prefixes. -/
theorem exprTry_eq_reduce (v : SemVer) (a : Char) (R : List Char) (s : Bool)
    (ha : a.isDigit = true)
    (hws : ∀ x ∈ a :: R, x.isWhitespace = false)
    (hstar : ((a :: R).contains '*') = false) :
    exprTry v ('=' :: a :: R) s =
      if a :: R ≠ v.raw.data then
        match parseSemVer (String.mk (padEq (a :: R))) with
        | none => none
        | some x =>
          some (v.partsList.take (min 5 (splitOnChar '.' (a :: R)).length) ==
            x.partsList.take (min 5 (splitOnChar '.' (a :: R)).length))
      else some true := by
  have hla : pyLStrip (a :: R) = a :: R := pyLStrip_eq_self hws
  simp only [exprTry, List.head?_cons, List.tail_cons, hla, hstar, ha, padEq]
  simp [ha, hstar]

/-!  ## Claim C3 -/

/-- C3 counterexample: the directly written clause `<1.0.0` is satisfied
by `1.0.0-alpha` although the core triples are equal — the claim's strict
core-only reading of a direct `<V` clause would reject it. -/
theorem c3_counterexample :
    parseSemVer "1.0.0-alpha" = some ⟨1, 0, 0, some "alpha", none, "1.0.0-alpha"⟩ ∧
    SemVer.matchReq ⟨1, 0, 0, some "alpha", none, "1.0.0-alpha"⟩ "<1.0.0" = some true ∧
    cmp3 (1, 0, 0) (1, 0, 0) = 0 :=
  ⟨by decide, by decide, by decide⟩

/-- C3 (amended): every directly written clause `<V` — `V` any literal
that starts with a digit and contains no `*`, no comma and no whitespace,
whose padded form parses to `o` — is evaluated with the default
prerelease-aware comparison (`strict=False`): `v` satisfies `<V` iff
`compare(v, o) < 0` in the full SemVer order.  The strict core-only mode
is consulted by the `<` branch only through the `strict` flag the caller
passes, as the synthesized caret/tilde upper bounds do with `strict=True`.
Consequently a prerelease of `V` itself satisfies the direct clause. -/
theorem c3_lt_clause_not_strict (v o : SemVer) (a : Char) (R : List Char)
    (ha : a.isDigit = true)
    (hws : ∀ x ∈ a :: R, x.isWhitespace = false)
    (hcm : ∀ x ∈ a :: R, x ≠ ',')
    (hstar : ((a :: R).contains '*') = false)
    (hparse : parseSemVer (String.mk (padLt (a :: R))) = some o) :
    (v.matchReq (String.mk ('<' :: a :: R)) = some true ↔ v.compareSV o false < 0) ∧
    ∀ s : Bool, exprPlain v ('<' :: a :: R) s = some (decide (v.compareSV o s < 0)) := by
  have hcm' : ∀ x ∈ '<' :: a :: R, x ≠ ',' := by
    intro x hx
    rcases List.mem_cons.mp hx with h | h
    · subst h; decide
    · exact hcm x h
  have hws' : ∀ x ∈ '<' :: a :: R, x.isWhitespace = false := by
    intro x hx
    rcases List.mem_cons.mp hx with h | h
    · subst h; decide
    · exact hws x h
  have hred : ∀ s, exprTry v ('<' :: a :: R) s = some (decide (v.compareSV o s < 0)) := by
    intro s
    rw [exprTry_lt_reduce v a R s ha hws hstar, hparse]
  have hplain : ∀ s, exprPlain v ('<' :: a :: R) s =
      some (decide (v.compareSV o s < 0)) := by
    intro s
    simp only [exprPlain, pyStrip_eq_self hws', List.isEmpty_cons, if_neg]
    rw [if_neg (by simp)]
    exact hred s
  refine ⟨?_, hplain⟩
  rw [matchReq_single_clause v _ hcm']
  have hP : exprP v ('<' :: a :: R) false = some (decide (v.compareSV o false < 0)) := by
    simp only [exprP, pyStrip_eq_self hws', List.head?_cons]
    rw [if_neg (by decide), if_neg (by decide)]
    exact hred false
  rw [hP]
  by_cases h : v.compareSV o false < 0 <;> simp [h]

/-- Concrete instance of the amended C3 at the clause `<1.0.0` and the
target `1.0.0-alpha`. -/
theorem c3_lt_clause_not_strict_witness :
    (SemVer.matchReq ⟨1, 0, 0, some "alpha", none, "1.0.0-alpha"⟩
        (String.mk ('<' :: '1' :: ".0.0".data)) = some true ↔
      SemVer.compareSV ⟨1, 0, 0, some "alpha", none, "1.0.0-alpha"⟩
        ⟨1, 0, 0, none, none, "1.0.0"⟩ false < 0) ∧
    exprPlain ⟨1, 0, 0, some "alpha", none, "1.0.0-alpha"⟩ ('<' :: '1' :: ".0.0".data) true =
      some (decide (SemVer.compareSV ⟨1, 0, 0, some "alpha", none, "1.0.0-alpha"⟩
        ⟨1, 0, 0, none, none, "1.0.0"⟩ true < 0)) :=
  ⟨(c3_lt_clause_not_strict ⟨1, 0, 0, some "alpha", none, "1.0.0-alpha"⟩
      ⟨1, 0, 0, none, none, "1.0.0"⟩ '1' ".0.0".data (by decide) (by decide) (by decide)
      (by decide) (by decide)).1,
   (c3_lt_clause_not_strict ⟨1, 0, 0, some "alpha", none, "1.0.0-alpha"⟩
      ⟨1, 0, 0, none, none, "1.0.0"⟩ '1' ".0.0".data (by decide) (by decide) (by decide)
      (by decide) (by decide)).2 true⟩

/-!  ## Claim C5 -/

/-- C5 counterexample: `=1.2.3` does match targets whose raw strings are
`1.2.3-alpha` and `1.2.3+build` — when the literal is not string-equal to
the raw version, the clause falls back to comparing the first
`min(5, len(b))` parts, which for a three-component literal is the core
triple. -/
theorem c5_counterexample :
    parseSemVer "1.2.3-alpha" = some ⟨1, 2, 3, some "alpha", none, "1.2.3-alpha"⟩ ∧
    SemVer.matchReq ⟨1, 2, 3, some "alpha", none, "1.2.3-alpha"⟩ "=1.2.3" = some true ∧
    parseSemVer "1.2.3+build" = some ⟨1, 2, 3, none, some "build", "1.2.3+build"⟩ ∧
    SemVer.matchReq ⟨1, 2, 3, none, some "build", "1.2.3+build"⟩ "=1.2.3" = some true ∧
    ("1.2.3-alpha" : String) ≠ "1.2.3" ∧ ("1.2.3+build" : String) ≠ "1.2.3" :=
  ⟨by decide, by decide, by decide, by decide, by decide, by decide⟩

theorem contains_eq_false_of_all_ne {c : Char} :
    ∀ {l : List Char}, (∀ x ∈ l, x ≠ c) → (l.contains c) = false
  | [], _ => rfl
  | x :: xs, h => by
    have ih := contains_eq_false_of_all_ne (fun y hy => h y (List.mem_cons_of_mem x hy))
    have hx : (c == x) = false := by
      have hne := h x (List.mem_cons_self x xs)
      simp only [beq_eq_false_iff_ne, ne_eq]
      intro h'
      exact hne h'.symm
    simp only [List.contains_cons, hx, ih, Bool.or_self]

/-- C5 (amended): every three-component clause `=A.B.C` (valid numeric
components) matches a target iff the literal is string-equal to the raw
version *or* the core `(major, minor, patch)` triples agree — string
equality is only the fast path, and the prefix fallback applies to
three-component literals as well, so prereleases and builds of the
literal are accepted. -/
theorem c5_eq_clause_core_fallback (v : SemVer) (A B C : List Char)
    (hA : validNum A = true) (hB : validNum B = true) (hC : validNum C = true) :
    v.matchReq (String.mk ('=' :: A ++ '.' :: B ++ '.' :: C)) =
      some ((v.raw.data == A ++ '.' :: B ++ '.' :: C) ||
        (v.major == valDigits A && v.minor == valDigits B && v.patch == valDigits C)) := by
  obtain ⟨a, A', rfl⟩ : ∃ a A', A = a :: A' := by
    cases A with
    | nil => exact absurd hA (by decide)
    | cons a A' => exact ⟨a, A', rfl⟩
  have hAd := validNum_isDigits hA
  have hBd := validNum_isDigits hB
  have hCd := validNum_isDigits hC
  have ha : a.isDigit = true := isDigits_mem hAd a (List.mem_cons_self a A')
  rw [show ('=' :: a :: A') ++ '.' :: B ++ '.' :: C =
        '=' :: a :: (A' ++ '.' :: B ++ '.' :: C) from by simp,
      show (a :: A') ++ '.' :: B ++ '.' :: C =
        a :: (A' ++ '.' :: B ++ '.' :: C) from by simp]
  have hmem : ∀ x ∈ a :: (A' ++ '.' :: B ++ '.' :: C), x.isDigit = true ∨ x = '.' := by
    intro x hx
    rcases List.mem_cons.mp hx with h | h
    · exact Or.inl (h ▸ ha)
    rcases List.mem_append.mp h with h | h
    · rcases List.mem_append.mp h with h | h
      · exact Or.inl (isDigits_mem hAd x (List.mem_cons_of_mem a h))
      · rcases List.mem_cons.mp h with h | h
        · exact Or.inr h
        · exact Or.inl (isDigits_mem hBd x h)
    · rcases List.mem_cons.mp h with h | h
      · exact Or.inr h
      · exact Or.inl (isDigits_mem hCd x h)
  have hws : ∀ x ∈ a :: (A' ++ '.' :: B ++ '.' :: C), x.isWhitespace = false := by
    intro x hx
    rcases hmem x hx with hd | hd
    · exact (digit_not_special hd).2.2
    · subst hd; decide
  have hstar : ((a :: (A' ++ '.' :: B ++ '.' :: C)).contains '*') = false := by
    refine contains_eq_false_of_all_ne ?_
    intro x hx h'
    subst h'
    rcases hmem _ hx with hd | hd
    · exact absurd hd (by decide)
    · exact absurd hd (by decide)
  have hcm : ∀ x ∈ '=' :: a :: (A' ++ '.' :: B ++ '.' :: C), x ≠ ',' := by
    intro x hx
    rcases List.mem_cons.mp hx with h | h
    · subst h; decide
    rcases hmem x h with hd | hd
    · exact (digit_not_special hd).1
    · subst hd; decide
  have hsp : splitOnChar '.' (a :: (A' ++ '.' :: B ++ '.' :: C)) = [a :: A', B, C] := by
    rw [show a :: (A' ++ '.' :: B ++ '.' :: C) = (a :: A') ++ '.' :: (B ++ '.' :: C)
          from by simp,
      splitOnChar_append_sep _ _
        (fun x hx => (digit_not_special (isDigits_mem hAd x hx)).2.1),
      splitOnChar_append_sep _ _
        (fun x hx => (digit_not_special (isDigits_mem hBd x hx)).2.1),
      splitOnChar_no_sep
        (fun x hx => (digit_not_special (isDigits_mem hCd x hx)).2.1)]
  have hpad : padEq (a :: (A' ++ '.' :: B ++ '.' :: C)) =
      a :: (A' ++ '.' :: B ++ '.' :: C) := by
    simp only [padEq]
    rw [hsp]
    simp
  have hparse : parseSemVer (String.mk (a :: (A' ++ '.' :: B ++ '.' :: C))) =
      some ⟨valDigits (a :: A'), valDigits B, valDigits C, none, none,
        String.mk (a :: (A' ++ '.' :: B ++ '.' :: C))⟩ := by
    rw [show a :: (A' ++ '.' :: B ++ '.' :: C) = (a :: A') ++ '.' :: B ++ '.' :: C
          from by simp]
    exact parseSemVer_core (a :: A') B C hA hB hC
  rw [matchReq_single_clause v _ hcm]
  have hP : exprP v ('=' :: a :: (A' ++ '.' :: B ++ '.' :: C)) false =
      exprTry v ('=' :: a :: (A' ++ '.' :: B ++ '.' :: C)) false := by
    have hws' : ∀ x ∈ '=' :: a :: (A' ++ '.' :: B ++ '.' :: C),
        x.isWhitespace = false := by
      intro x hx
      rcases List.mem_cons.mp hx with h | h
      · subst h; decide
      · exact hws x h
    simp only [exprP, pyStrip_eq_self hws', List.head?_cons]
    rw [if_neg (by decide), if_neg (by decide)]
  rw [hP, exprTry_eq_reduce v a (A' ++ '.' :: B ++ '.' :: C) false ha hws hstar,
    hpad, hparse, hsp]
  by_cases hr : a :: (A' ++ '.' :: B ++ '.' :: C) = v.raw.data
  · rw [if_neg (not_not_intro hr), ← hr]
    simp
  · rw [if_pos hr]
    have hraw : (v.raw.data == a :: (A' ++ '.' :: B ++ '.' :: C)) = false := by
      simp only [beq_eq_false_iff_ne, ne_eq]
      intro h'
      exact hr h'.symm
    rw [hraw]
    simp only [Bool.false_or, List.length_cons, List.length_nil]
    by_cases h1 : v.major = valDigits (a :: A') <;>
      by_cases h2 : v.minor = valDigits B <;>
      by_cases h3 : v.patch = valDigits C <;>
      simp [SemVer.partsList, h1, h2, h3]

/-- Concrete instance of the amended C5 at the clause `=1.2.3` and the
target `1.2.3-alpha`. -/
theorem c5_eq_clause_core_fallback_witness :
    SemVer.matchReq ⟨1, 2, 3, some "alpha", none, "1.2.3-alpha"⟩
        (String.mk ('=' :: "1".data ++ '.' :: "2".data ++ '.' :: "3".data)) =
      some ((("1.2.3-alpha" : String).data == "1".data ++ '.' :: "2".data ++ '.' :: "3".data) ||
        (1 == valDigits "1".data && 2 == valDigits "2".data && 3 == valDigits "3".data)) :=
  c5_eq_clause_core_fallback ⟨1, 2, 3, some "alpha", none, "1.2.3-alpha"⟩
    "1".data "2".data "3".data (by decide) (by decide) (by decide)

/-!  ## Claim C4 -/

/-- C4 counterexample: `^0.0` admits `0.0.5` while `^0.0.0` does not — the
two-component caret `^0.0` expands with upper bound `<0.1.0`, not the
claimed `<0.0.1`. -/
theorem c4_counterexample :
    parseSemVer "0.0.5" = some ⟨0, 0, 5, none, none, "0.0.5"⟩ ∧
    SemVer.matchReq ⟨0, 0, 5, none, none, "0.0.5"⟩ "^0.0" = some true ∧
    SemVer.matchReq ⟨0, 0, 5, none, none, "0.0.5"⟩ "^0.0.0" = some false :=
  ⟨by decide, by decide, by decide⟩

/-- The expansion `_caret_requirement` on a two-component pattern `^M.N`. -/
theorem caretReq_two (M N : List Char) (hMn : isDigits M = true) (hNn : isDigits N = true) :
    caretReq ('^' :: M ++ '.' :: N) =
      some ('>' :: '=' :: M ++ '.' :: N ++ ".0".data,
        if M = ['0']
        then '<' :: '0' :: '.' :: (toString (valDigits N + 1)).data ++ ".0".data
        else '<' :: (toString (valDigits M + 1)).data ++ ".0.0".data) := by
  have hMd : ∀ x ∈ M, x ≠ '.' := fun x hx => (digit_not_special (isDigits_mem hMn x hx)).2.1
  have hNd : ∀ x ∈ N, x ≠ '.' := fun x hx => (digit_not_special (isDigits_mem hNn x hx)).2.1
  have hsplit : splitOnChar '.' (M ++ '.' :: N) = [M, N] := by
    rw [splitOnChar_append_sep M N hMd, splitOnChar_no_sep hNd]
  simp only [caretReq]
  simp only [show ('^' :: M ++ '.' :: N).tail = M ++ '.' :: N from rfl, hsplit]
  by_cases hM0 : M = ['0'] <;>
    simp [hM0, pyInt, hMn, hNn, List.getD]

/-- The expansion `_caret_requirement` on the padded three-component pattern `^M.N.0`. -/
theorem caretReq_three (M N : List Char) (hMn : isDigits M = true) (hNn : isDigits N = true) :
    caretReq ('^' :: M ++ '.' :: N ++ ".0".data) =
      some ('>' :: '=' :: M ++ '.' :: N ++ ".0".data,
        if M = ['0']
        then
          if N = ['0']
          then "<0.0.1".data
          else '<' :: '0' :: '.' :: (toString (valDigits N + 1)).data ++ ".0".data
        else '<' :: (toString (valDigits M + 1)).data ++ ".0.0".data) := by
  have hMd : ∀ x ∈ M, x ≠ '.' := fun x hx => (digit_not_special (isDigits_mem hMn x hx)).2.1
  have hNd : ∀ x ∈ N, x ≠ '.' := fun x hx => (digit_not_special (isDigits_mem hNn x hx)).2.1
  have hsplit : splitOnChar '.' (M ++ '.' :: N ++ ".0".data) = [M, N, ['0']] := by
    rw [show (M ++ '.' :: N ++ ".0".data) = M ++ '.' :: (N ++ '.' :: ['0']) from by simp,
      splitOnChar_append_sep M _ hMd, splitOnChar_append_sep N _ hNd]
    rfl
  simp only [caretReq]
  simp only [show ('^' :: M ++ '.' :: N ++ ".0".data).tail = M ++ '.' :: N ++ ".0".data from rfl,
    hsplit]
  by_cases hM0 : M = ['0'] <;> by_cases hN0 : N = ['0'] <;>
    (simp [hM0, hN0, pyInt, hMn, hNn, List.getD]; try rfl)

/-- C4 (amended): matching `^MAJOR.MINOR` is equivalent to matching
`^MAJOR.MINOR.0` for every pattern except `^0.0` — the two-component caret
always uses the `<0.(MINOR+1).0` upper bound, so `^0.0` expands with upper
bound `<0.1.0` while `^0.0.0` uses `<0.0.1`. -/
theorem c4_caret_two_vs_three :
    (∀ (v : SemVer) (M N : List Char), validNum M = true → validNum N = true →
      ¬(M = ['0'] ∧ N = ['0']) →
      v.matchReq (String.mk ('^' :: M ++ '.' :: N)) =
        v.matchReq (String.mk ('^' :: M ++ '.' :: N ++ ".0".data))) ∧
    caretReq ("^0.0".data) = some (">=0.0.0".data, "<0.1.0".data) := by
  constructor
  · intro v M N hM hN hMN
    have hMn := validNum_isDigits hM
    have hNn := validNum_isDigits hN
    have hdig : ∀ x, x.isDigit = true → x ≠ ',' ∧ x.isWhitespace = false := by
      intro x hx
      exact ⟨(digit_not_special hx).1, (digit_not_special hx).2.2⟩
    have hmid : ∀ x ∈ M ++ '.' :: N, x ≠ ',' ∧ x.isWhitespace = false := by
      intro x hx
      rcases List.mem_append.mp hx with h | h
      · exact hdig x (isDigits_mem hMn x h)
      rcases List.mem_cons.mp h with h | h
      · subst h; exact ⟨by decide, by decide⟩
      · exact hdig x (isDigits_mem hNn x h)
    have hq1 : ∀ x ∈ ('^' :: M ++ '.' :: N), x ≠ ',' ∧ x.isWhitespace = false := by
      intro x hx
      rcases List.mem_cons.mp hx with h | h
      · subst h; exact ⟨by decide, by decide⟩
      · exact hmid x h
    have hq2 : ∀ x ∈ ('^' :: M ++ '.' :: N ++ ".0".data),
        x ≠ ',' ∧ x.isWhitespace = false := by
      intro x hx
      rcases List.mem_cons.mp hx with h | h
      · subst h; exact ⟨by decide, by decide⟩
      rcases List.mem_append.mp h with h | h
      · exact hmid x h
      rcases List.mem_cons.mp h with h | h
      · subst h; exact ⟨by decide, by decide⟩
      · rw [List.mem_singleton.mp h]; exact ⟨by decide, by decide⟩
    rw [matchReq_single_clause v _ (fun x hx => (hq1 x hx).1),
      matchReq_single_clause v _ (fun x hx => (hq2 x hx).1)]
    rw [exprP_caret v _ false (pyStrip_eq_self (fun x hx => (hq1 x hx).2)) rfl,
      exprP_caret v _ false (pyStrip_eq_self (fun x hx => (hq2 x hx).2)) rfl]
    rw [caretReq_two M N hMn hNn, caretReq_three M N hMn hNn]
    by_cases hM0 : M = ['0']
    · have hN0 : N ≠ ['0'] := fun h => hMN ⟨hM0, h⟩
      simp [hM0, hN0]
    · simp [hM0]
  · rfl

/-- Concrete instance of the amended C4: `^1.2` and `^1.2.0` agree. -/
theorem c4_caret_two_vs_three_witness :
    SemVer.matchReq ⟨1, 2, 9, none, none, "1.2.9"⟩
        (String.mk ('^' :: "1".data ++ '.' :: "2".data)) =
      SemVer.matchReq ⟨1, 2, 9, none, none, "1.2.9"⟩
        (String.mk ('^' :: "1".data ++ '.' :: "2".data ++ ".0".data)) :=
  c4_caret_two_vs_three.1 ⟨1, 2, 9, none, none, "1.2.9"⟩ "1".data "2".data
    (by decide) (by decide) (by decide)

/-!  ## Claim C7 -/

/-- C7: a caret or tilde clause evaluates its synthesized lower bound with
the default prerelease-aware comparison and its synthesized upper bound
with the strict core-only comparison (`_expr(p2, True)`), whatever
`strict` value the clause itself received.  Consequently `^1.0.0` rejects
`2.0.0-alpha` and `~1.2.3` rejects `1.3.0-alpha` (their strict upper
bounds `<2.0.0` resp. `<1.3.0` compare cores only) while the plain
`<2.0.0` and `<1.3.0` clauses would admit them, and `^0.2.3` rejects
`0.2.3-alpha` and `~1.2.3` rejects `1.2.3-alpha` (the non-strict lower
bounds `>=0.2.3` resp. `>=1.2.3` see the prerelease as smaller than the
release). -/
theorem c7_caret_tilde_bounds_strictness :
    (∀ (v : SemVer) (pat : List Char) (s : Bool), pyStrip pat = pat →
      pat.head? = some '^' →
      exprP v pat s =
        (caretReq pat).bind (fun pr =>
          (exprPlain v pr.1 false).bind (fun b1 =>
            if b1 = true then exprPlain v pr.2 true else some false))) ∧
    (∀ (v : SemVer) (pat : List Char) (s : Bool), pyStrip pat = pat →
      pat.head? = some '~' →
      exprP v pat s =
        (tildeReq pat).bind (fun pr =>
          (exprPlain v pr.1 false).bind (fun b1 =>
            if b1 = true then exprPlain v pr.2 true else some false))) ∧
    (parseSemVer "2.0.0-alpha" = some ⟨2, 0, 0, some "alpha", none, "2.0.0-alpha"⟩ ∧
      SemVer.matchReq ⟨2, 0, 0, some "alpha", none, "2.0.0-alpha"⟩ "^1.0.0" = some false ∧
      exprPlain ⟨2, 0, 0, some "alpha", none, "2.0.0-alpha"⟩ "<2.0.0".data true = some false ∧
      exprPlain ⟨2, 0, 0, some "alpha", none, "2.0.0-alpha"⟩ "<2.0.0".data false = some true ∧
      parseSemVer "0.2.3-alpha" = some ⟨0, 2, 3, some "alpha", none, "0.2.3-alpha"⟩ ∧
      SemVer.matchReq ⟨0, 2, 3, some "alpha", none, "0.2.3-alpha"⟩ "^0.2.3" = some false ∧
      exprPlain ⟨0, 2, 3, some "alpha", none, "0.2.3-alpha"⟩ ">=0.2.3".data false = some false) ∧
    (tildeReq "~1.2.3".data = some (">=1.2.3".data, "<1.3.0".data) ∧
      parseSemVer "1.3.0-alpha" = some ⟨1, 3, 0, some "alpha", none, "1.3.0-alpha"⟩ ∧
      SemVer.matchReq ⟨1, 3, 0, some "alpha", none, "1.3.0-alpha"⟩ "~1.2.3" = some false ∧
      exprPlain ⟨1, 3, 0, some "alpha", none, "1.3.0-alpha"⟩ "<1.3.0".data true = some false ∧
      exprPlain ⟨1, 3, 0, some "alpha", none, "1.3.0-alpha"⟩ "<1.3.0".data false = some true ∧
      parseSemVer "1.2.3-alpha" = some ⟨1, 2, 3, some "alpha", none, "1.2.3-alpha"⟩ ∧
      SemVer.matchReq ⟨1, 2, 3, some "alpha", none, "1.2.3-alpha"⟩ "~1.2.3" = some false ∧
      exprPlain ⟨1, 2, 3, some "alpha", none, "1.2.3-alpha"⟩ ">=1.2.3".data false = some false) :=
  ⟨fun v pat s hs hh => exprP_caret v pat s hs hh,
   fun v pat s hs hh => exprP_tilde v pat s hs hh,
   ⟨by decide, by decide, by decide, by decide, by decide, by decide, by decide⟩,
   ⟨by decide, by decide, by decide, by decide, by decide, by decide, by decide, by decide⟩⟩

/-- Concrete instances of C7's general clauses at the patterns `^1.0.0`
and `~1.2.3`. -/
theorem c7_caret_tilde_bounds_strictness_witness :
    (exprP ⟨2, 0, 0, some "alpha", none, "2.0.0-alpha"⟩ "^1.0.0".data false =
      (caretReq "^1.0.0".data).bind (fun pr =>
        (exprPlain ⟨2, 0, 0, some "alpha", none, "2.0.0-alpha"⟩ pr.1 false).bind (fun b1 =>
          if b1 = true
          then exprPlain ⟨2, 0, 0, some "alpha", none, "2.0.0-alpha"⟩ pr.2 true
          else some false))) ∧
    (exprP ⟨1, 3, 0, some "alpha", none, "1.3.0-alpha"⟩ "~1.2.3".data false =
      (tildeReq "~1.2.3".data).bind (fun pr =>
        (exprPlain ⟨1, 3, 0, some "alpha", none, "1.3.0-alpha"⟩ pr.1 false).bind (fun b1 =>
          if b1 = true
          then exprPlain ⟨1, 3, 0, some "alpha", none, "1.3.0-alpha"⟩ pr.2 true
          else some false))) :=
  ⟨c7_caret_tilde_bounds_strictness.1 ⟨2, 0, 0, some "alpha", none, "2.0.0-alpha"⟩
      "^1.0.0".data false (by decide) (by decide),
   c7_caret_tilde_bounds_strictness.2.1 ⟨1, 3, 0, some "alpha", none, "1.3.0-alpha"⟩
      "~1.2.3".data false (by decide) (by decide)⟩

/-!  ## Claim C8 -/

theorem strJoin_cons (a : String) (l : List String) :
    String.join (a :: l) = a ++ String.join l := by
  have key : ∀ (l : List String) (x : String), l.foldl (· ++ ·) x = x ++ l.foldl (· ++ ·) "" := by
    intro l
    induction l with
    | nil => intro x; simp [String.append_empty]
    | cons y ys ih =>
      intro x
      simp only [List.foldl_cons]
      rw [ih (x ++ y), ih ("" ++ y)]
      simp [String.empty_append, String.append_assoc]
  simp only [String.join, List.foldl_cons]
  rw [key l ("" ++ a)]
  simp [String.empty_append]

theorem pyJoin_foldl (s : String) (xs : List String) (acc : String) :
    List.foldl (fun a y => a ++ s ++ y) acc xs =
      acc ++ String.join (xs.map (fun y => s ++ y)) := by
  induction xs generalizing acc with
  | nil => simp [String.append_empty, String.join]
  | cons y ys ih =>
    simp only [List.foldl_cons, List.map_cons]
    rw [ih (acc ++ s ++ y), strJoin_cons]
    simp [String.append_assoc]

/-- Joining as `"\n".join(lines + [""])` renders every line newline-terminated. -/
theorem pyJoin_trailing_newline (xs : List String) :
    pyJoin "\n" (xs ++ [""]) = String.join (xs.map (fun y => y ++ "\n")) := by
  cases xs with
  | nil => rfl
  | cons x ys =>
    simp only [List.cons_append, pyJoin]
    rw [pyJoin_foldl]
    induction ys generalizing x with
    | nil => simp [String.join, strJoin_cons, String.append_empty]
    | cons z zs ih =>
      have ih' := ih z
      rw [List.map_cons, strJoin_cons] at ih'
      simp only [List.cons_append, List.map_cons, strJoin_cons, String.append_assoc] at ih' ⊢
      rw [ih']

/-- C8: the file content written by `make_index` for a package is exactly
the source index file's lines whose `vers` belongs to the selected version
set — byte-identical, in the source file's line order (a sublist of the
source lines), each line newline-terminated (the appended empty string
renders as one trailing blank line). -/
theorem c8_makeIndex_fidelity (lines : List IndexLine) (versions : List String) :
    makeIndexContent lines versions =
      String.join (((lines.filter (fun l => versions.contains l.vers)).map
        (fun l => l.raw)).map (fun y => y ++ "\n")) ∧
    ((lines.filter (fun l => versions.contains l.vers)).map (fun l => l.raw)).Sublist
      (lines.map (fun l => l.raw)) := by
  constructor
  · simp only [makeIndexContent]
    exact pyJoin_trailing_newline _
  · exact (List.filter_sublist lines).map (fun l => l.raw)

/-!  ## Claim C9 -/

theorem resolveLoop_spec (excl : List String) (index : String → Option (List Record)) :
    ∀ (fuel : Nat) (st : RState),
      (resolveLoop excl index fuel st).2.2 ≤ fuel ∧
      ((resolveLoop excl index fuel st).2.1 = true →
        ∃ stF, (resolveLoop excl index fuel st).1 = some stF) := by
  intro fuel
  induction fuel with
  | zero =>
    intro st
    by_cases h : st.crates.isEmpty
    · simp [resolveLoop, h]
    · simp [resolveLoop, h]
  | succ f ih =>
    intro st
    by_cases h : st.crates.isEmpty
    · simp [resolveLoop, h]
    · rcases hs : stepOnce excl index st with - | st'
      · simp [resolveLoop, h, hs]
      · have := ih st'
        rcases hr : resolveLoop excl index f st' with ⟨r, ov, k⟩
        rw [hr] at this
        simp only [resolveLoop, h, hs, hr, if_false]
        constructor
        · show k + 1 ≤ f + 1
          have h1 : k ≤ f := this.1
          omega
        · exact this.2

/-- C9: `resolve_deps` always terminates — the main loop runs at most
`max_iterations` iterations, and hitting the cap is non-fatal: the
function still returns a result whose `selected_crates` is built from the
`seen` pairs accumulated so far, instead of raising. -/
theorem c9_resolve_bounded (excl : List String) (index : String → Option (List Record))
    (maxIterations : Nat) (st0 : RState) :
    (resolveDeps excl index maxIterations st0).2.2 ≤ maxIterations ∧
    ((resolveDeps excl index maxIterations st0).2.1 = true →
      ∃ res, (resolveDeps excl index maxIterations st0).1 = some res ∧
        res.selectedCrates = buildSelected res.seen) := by
  have hspec := resolveLoop_spec excl index maxIterations st0
  rcases hr : resolveLoop excl index maxIterations st0 with ⟨r, ov, k⟩
  rw [hr] at hspec
  simp only [resolveDeps, hr]
  rcases r with - | stF
  · refine ⟨hspec.1, ?_⟩
    intro hov
    obtain ⟨stF, hF⟩ := hspec.2 hov
    exact absurd hF (by simp)
  · exact ⟨hspec.1, fun _ => ⟨_, rfl, rfl⟩⟩

/-- Concrete instance of C9: with `max_iterations = 1` and a crate whose
dependency enqueues further work, the loop overruns, emits its diagnostic
and still returns the partial result built from `seen`. -/
theorem c9_resolve_bounded_witness :
    ∃ res, (resolveDeps [] c2Index 1 ⟨[("a", ["^1"])], []⟩).1 = some res ∧
      res.selectedCrates = buildSelected res.seen :=
  (c9_resolve_bounded [] c2Index 1 ⟨[("a", ["^1"])], []⟩).2 (by decide)

/-!  ## Claim C6 -/

/-- C6 counterexample: `make_index` applies no exclusion filtering — a
selected catalog (e.g. reloaded from `selected_crates.json`) containing
the excluded name `badcrate` still gets an index file emitted for it. -/
theorem c6_counterexample :
    isExcluded ["bad*"] "badcrate" = true ∧
    makeIndexFiles (fun _ => []) [("badcrate", ["1.0.0"])] =
      [("ba/dc/badcrate", "")] := by
  constructor
  · show isExcluded ["bad*"] "badcrate" = true
    simp only [isExcluded, List.any_cons, List.any_nil, Bool.or_false]
    show globMatch "bad*".data "badcrate".data = true
    simp [globMatch]
  · decide

theorem addCrate_preserves {excl : List String} {crates : List (String × List String)}
    {name version : String} (h : NoExclCrates excl crates) :
    NoExclCrates excl (addCrate excl crates name version) := by
  unfold addCrate
  by_cases he : isExcluded excl name
  · rw [if_pos he]; exact h
  · rw [if_neg he]
    by_cases hex : crates.any (fun p => p.1 == name)
    · rw [if_pos hex]
      intro p hp
      obtain ⟨q, hq, hqe⟩ := List.mem_map.mp hp
      by_cases hk : q.1 == name
      · rw [if_pos hk] at hqe
        rw [← hqe]
        exact h q hq
      · rw [if_neg hk] at hqe
        rw [← hqe]
        exact h q hq
    · rw [if_neg hex]
      intro p hp
      rcases List.mem_append.mp hp with hq | hq
      · exact h p hq
      · rw [List.mem_singleton.mp hq]
        simpa using he

theorem expandDep_some {excl : List String} {seen : List (String × String)}
    {crates crates' : List (String × List String)} {d : Dep}
    (h : expandDep excl seen crates d = some crates') :
    crates' = addCrate excl crates (depName d) d.req := by
  unfold expandDep at h
  split_ifs at h
  exact (Option.some.inj h).symm

theorem expandDeps_preserves {excl : List String} {seen : List (String × String)} :
    ∀ {deps : List Dep} {crates crates' : List (String × List String)},
    expandDeps excl seen crates deps = some crates' →
    NoExclCrates excl crates → NoExclCrates excl crates'
  | [], crates, crates', h, hc => by
    simp only [expandDeps] at h
    rw [← Option.some.inj h]
    exact hc
  | d :: ds, crates, crates', h, hc => by
    simp only [expandDeps, Option.bind_eq_bind] at h
    rcases he : expandDep excl seen crates d with - | mid
    · rw [he] at h; exact Option.noConfusion h
    · rw [he] at h
      simp only [Option.some_bind] at h
      have hmid : NoExclCrates excl mid := by
        rw [expandDep_some he]
        exact addCrate_preserves hc
      exact expandDeps_preserves h hmid

theorem processVersions_preserves {excl : List String} {crate : String}
    {info : List (String × Record)} (hcrate : isExcluded excl crate = false) :
    ∀ {versions : List String} {st st' : RState},
    processVersions excl crate info versions st = some st' →
    NoExclCrates excl st.crates → NoExclSeen excl st.seen →
    NoExclCrates excl st'.crates ∧ NoExclSeen excl st'.seen
  | [], st, st', h, hc, hs => by
    simp only [processVersions] at h
    rw [← Option.some.inj h]
    exact ⟨hc, hs⟩
  | v :: vs, st, st', h, hc, hs => by
    simp only [processVersions, Option.bind_eq_bind] at h
    rcases hf : findMatching v info with - | k
    · rw [hf] at h; exact Option.noConfusion h
    · rw [hf] at h
      simp only [Option.some_bind] at h
      by_cases hseen : st.seen.contains (crate, k.vers)
      · rw [if_pos hseen] at h
        exact processVersions_preserves hcrate h hc hs
      · rw [if_neg hseen] at h
        rcases he : expandDeps excl (st.seen ++ [(crate, k.vers)]) st.crates k.deps
          with - | crates2
        · rw [he] at h; exact Option.noConfusion h
        · rw [he] at h
          simp only [Option.some_bind] at h
          have hs2 : NoExclSeen excl (st.seen ++ [(crate, k.vers)]) := by
            intro p hp
            rcases List.mem_append.mp hp with hq | hq
            · exact hs p hq
            · rw [List.mem_singleton.mp hq]
              exact hcrate
          exact processVersions_preserves hcrate h (expandDeps_preserves he hc) hs2

theorem processCrate_preserves {excl : List String}
    {index : String → Option (List Record)} {st st' : RState} {crate : String}
    {versions : List String}
    (h : processCrate excl index st crate versions = some st')
    (hcrate : isExcluded excl crate = false)
    (hc : NoExclCrates excl st.crates) (hs : NoExclSeen excl st.seen) :
    NoExclCrates excl st'.crates ∧ NoExclSeen excl st'.seen := by
  unfold processCrate at h
  rw [if_neg (by simp [hcrate])] at h
  by_cases hv : versions.isEmpty
  · rw [if_pos hv] at h
    rw [← Option.some.inj h]
    exact ⟨hc, hs⟩
  · rw [if_neg hv] at h
    rcases hidx : index crate with - | records
    · rw [hidx] at h
      rw [← Option.some.inj h]
      exact ⟨hc, hs⟩
    · rw [hidx] at h
      exact processVersions_preserves hcrate h hc hs

theorem stepOnce_preserves {excl : List String}
    {index : String → Option (List Record)} {st st' : RState}
    (h : stepOnce excl index st = some st')
    (hc : NoExclCrates excl st.crates) (hs : NoExclSeen excl st.seen) :
    NoExclCrates excl st'.crates ∧ NoExclSeen excl st'.seen := by
  unfold stepOnce at h
  rcases hl : st.crates.getLast? with - | ⟨crate, versions⟩
  · rw [hl] at h
    rw [← Option.some.inj h]
    exact ⟨hc, hs⟩
  · rw [hl] at h
    have hmem : (crate, versions) ∈ st.crates := List.mem_of_mem_getLast? hl
    have hcrate : isExcluded excl crate = false := hc (crate, versions) hmem
    have hcd : NoExclCrates excl st.crates.dropLast := by
      intro p hp
      exact hc p ((List.dropLast_sublist st.crates).mem hp)
    exact processCrate_preserves h hcrate hcd hs

theorem resolveLoop_preserves {excl : List String}
    {index : String → Option (List Record)} :
    ∀ (fuel : Nat) (st st' : RState),
    (resolveLoop excl index fuel st).1 = some st' →
    NoExclCrates excl st.crates → NoExclSeen excl st.seen →
    NoExclCrates excl st'.crates ∧ NoExclSeen excl st'.seen := by
  intro fuel
  induction fuel with
  | zero =>
    intro st st' h hc hs
    by_cases he : st.crates.isEmpty <;>
      (simp only [resolveLoop, he, if_true, if_false] at h;
       rw [← Option.some.inj h]; exact ⟨hc, hs⟩)
  | succ f ih =>
    intro st st' h hc hs
    by_cases he : st.crates.isEmpty
    · simp only [resolveLoop, he, if_true] at h
      rw [← Option.some.inj h]
      exact ⟨hc, hs⟩
    · rcases hstep : stepOnce excl index st with - | st2
      · simp only [resolveLoop, he, if_false, hstep] at h
        exact Option.noConfusion h
      · rcases hr : resolveLoop excl index f st2 with ⟨r, ov, k⟩
        simp only [resolveLoop, he, if_false, hstep, hr] at h
        obtain ⟨hc2, hs2⟩ := stepOnce_preserves hstep hc hs
        exact ih st2 st' (by rw [hr]; exact h) hc2 hs2

/-- C6 (amended): exclusions are enforced at worklist insertion —
`TopCrates.add` is a no-op for an excluded name, and the resolver
preserves the invariant that neither the worklist nor `seen` (hence the
selected catalog built from `seen`) ever names an excluded crate.  The
materializer, however, does **not** re-apply the exclusion set: it writes
one index file for every entry of the selected catalog, so an excluded
package present in a catalog reloaded from `selected_crates.json` is
still emitted. -/
theorem c6_exclusions_not_reapplied :
    (∀ (excl : List String) (crates : List (String × List String)) (name version : String),
      isExcluded excl name = true → addCrate excl crates name version = crates) ∧
    (∀ (excl : List String) (index : String → Option (List Record)) (fuel : Nat)
      (st st' : RState),
      (resolveLoop excl index fuel st).1 = some st' →
      NoExclCrates excl st.crates → NoExclSeen excl st.seen →
      NoExclCrates excl st'.crates ∧ NoExclSeen excl st'.seen) ∧
    (∀ (files : String → List IndexLine) (selected : List (String × List String)),
      (makeIndexFiles files selected).map Prod.fst =
        selected.map (fun p => prefixName p.1)) := by
  refine ⟨?_, ?_, ?_⟩
  · intro excl crates name version h
    unfold addCrate
    rw [if_pos h]
  · intro excl index fuel st st' h hc hs
    exact resolveLoop_preserves fuel st st' h hc hs
  · intro files selected
    simp [makeIndexFiles]

/-- Concrete instance of the amended C6: `add` drops the excluded name and
an overrun-free resolver run keeps the no-excluded-name invariant. -/
theorem c6_exclusions_not_reapplied_witness :
    addCrate ["bad*"] [] "badcrate" "1.0.0" = [] ∧
    (NoExclCrates [] [] ∧ NoExclSeen [] [("a", "1.0.0"), ("b", "1.0.0")]) := by
  constructor
  · apply c6_exclusions_not_reapplied.1
    show isExcluded ["bad*"] "badcrate" = true
    simp only [isExcluded, List.any_cons, List.any_nil, Bool.or_false]
    show globMatch "bad*".data "badcrate".data = true
    simp [globMatch]
  · exact c6_exclusions_not_reapplied.2.1 [] c2Index 10 ⟨[("a", ["^1"])], []⟩
      ⟨[], [("a", "1.0.0"), ("b", "1.0.0")]⟩ (by decide)
      (by intro p hp; simp at hp; simp [hp, isExcluded])
      (by intro p hp; simp at hp)
